import Mathlib

/-!
Verification of the azure-policy-mcp core against its specification.

The embedding models, from the TypeScript source:
  * `src/infrastructure/cache/cache-manager.ts` (CacheManager)
  * `src/services/policy/policy-parser.ts` (PolicyParser)
  * `src/types/azure.ts` (template search / category inference)
JavaScript `Map` is modelled as an insertion-ordered association list,
JS `Set` as an insertion-ordered duplicate-free list, and `Date.now()`
as an explicit `now : Int` argument.
-/

namespace AzurePolicyMcp

/-- A JSON value, as operands of policy conditions are arbitrary JSON.
Numbers are modelled as integers (no claim depends on fractional values). -/
inductive JVal where
  | str : String → JVal
  | num : Int → JVal
  | bool : Bool → JVal
  | arr : List JVal → JVal
  | obj : List (String × JVal) → JVal
  | null : JVal

/-- JavaScript truthiness of a JSON value. -/
def JVal.truthy : JVal → Bool
  | .str s => s ≠ ""
  | .num n => n ≠ 0
  | .bool b => b
  | .arr _ => true
  | .obj _ => true
  | .null => false

mutual
/-- Modelled from the spec: the recursive `PolicyCondition` type of
`src/types/policy.ts` (the file itself is absent from the corpus; its shape
follows spec section 3 and every access the parser source makes).  A node may
simultaneously carry logical members (`allOf`, `anyOf`, `not`), a `field`
with comparison operators, and a `count` aggregate; the parser checks each
member independently.  `field = some ""` models a present-but-falsy field. -/
inductive Condition where
  | mk
      (allOf : Option (List Condition))
      (anyOf : Option (List Condition))
      (nt : Option Condition)
      (field : Option String)
      (equals notEquals like notLike matchOp notMatch containsOp notContainsOp
        inOp notInOp existsOp less lessOrEquals greater greaterOrEquals : Option JVal)
      (count : Option CountExpr) : Condition

/-- Modelled from the spec: the `count` aggregate `{field, where?, comparison}`. -/
inductive CountExpr where
  | mk (field : Option String) (whereCond : Option Condition) : CountExpr
end

def Condition.allOf : Condition → Option (List Condition)
  | .mk a _ _ _ _ _ _ _ _ _ _ _ _ _ _ _ _ _ _ _ => a

def Condition.anyOf : Condition → Option (List Condition)
  | .mk _ b _ _ _ _ _ _ _ _ _ _ _ _ _ _ _ _ _ _ => b

def Condition.nt : Condition → Option Condition
  | .mk _ _ n _ _ _ _ _ _ _ _ _ _ _ _ _ _ _ _ _ => n

def Condition.field : Condition → Option String
  | .mk _ _ _ f _ _ _ _ _ _ _ _ _ _ _ _ _ _ _ _ => f

def Condition.equals : Condition → Option JVal
  | .mk _ _ _ _ v _ _ _ _ _ _ _ _ _ _ _ _ _ _ _ => v

def Condition.notEquals : Condition → Option JVal
  | .mk _ _ _ _ _ v _ _ _ _ _ _ _ _ _ _ _ _ _ _ => v

def Condition.like : Condition → Option JVal
  | .mk _ _ _ _ _ _ v _ _ _ _ _ _ _ _ _ _ _ _ _ => v

def Condition.notLike : Condition → Option JVal
  | .mk _ _ _ _ _ _ _ v _ _ _ _ _ _ _ _ _ _ _ _ => v

def Condition.matchOp : Condition → Option JVal
  | .mk _ _ _ _ _ _ _ _ v _ _ _ _ _ _ _ _ _ _ _ => v

def Condition.notMatch : Condition → Option JVal
  | .mk _ _ _ _ _ _ _ _ _ v _ _ _ _ _ _ _ _ _ _ => v

def Condition.containsOp : Condition → Option JVal
  | .mk _ _ _ _ _ _ _ _ _ _ v _ _ _ _ _ _ _ _ _ => v

def Condition.notContainsOp : Condition → Option JVal
  | .mk _ _ _ _ _ _ _ _ _ _ _ v _ _ _ _ _ _ _ _ => v

def Condition.inOp : Condition → Option JVal
  | .mk _ _ _ _ _ _ _ _ _ _ _ _ v _ _ _ _ _ _ _ => v

def Condition.notInOp : Condition → Option JVal
  | .mk _ _ _ _ _ _ _ _ _ _ _ _ _ v _ _ _ _ _ _ => v

def Condition.existsOp : Condition → Option JVal
  | .mk _ _ _ _ _ _ _ _ _ _ _ _ _ _ v _ _ _ _ _ => v

def Condition.less : Condition → Option JVal
  | .mk _ _ _ _ _ _ _ _ _ _ _ _ _ _ _ v _ _ _ _ => v

def Condition.lessOrEquals : Condition → Option JVal
  | .mk _ _ _ _ _ _ _ _ _ _ _ _ _ _ _ _ v _ _ _ => v

def Condition.greater : Condition → Option JVal
  | .mk _ _ _ _ _ _ _ _ _ _ _ _ _ _ _ _ _ v _ _ => v

def Condition.greaterOrEquals : Condition → Option JVal
  | .mk _ _ _ _ _ _ _ _ _ _ _ _ _ _ _ _ _ _ v _ => v

def Condition.count : Condition → Option CountExpr
  | .mk _ _ _ _ _ _ _ _ _ _ _ _ _ _ _ _ _ _ _ c => c

/-- Look up a comparison operator member by its JSON key, mirroring the
dynamic accesses `condition[op]` in the parser source. -/
def Condition.opVal (c : Condition) (op : String) : Option JVal :=
  if op = "equals" then c.equals
  else if op = "notEquals" then c.notEquals
  else if op = "like" then c.like
  else if op = "notLike" then c.notLike
  else if op = "match" then c.matchOp
  else if op = "notMatch" then c.notMatch
  else if op = "contains" then c.containsOp
  else if op = "notContains" then c.notContainsOp
  else if op = "in" then c.inOp
  else if op = "notIn" then c.notInOp
  else if op = "exists" then c.existsOp
  else if op = "less" then c.less
  else if op = "lessOrEquals" then c.lessOrEquals
  else if op = "greater" then c.greater
  else if op = "greaterOrEquals" then c.greaterOrEquals
  else none

/-- A condition node carrying only a field and an `equals` operand. -/
def Condition.fieldEquals (f : String) (v : JVal) : Condition :=
  .mk none none none (some f) (some v)
    none none none none none none none none none none none none none none none

/-- A condition node carrying only a field and an `exists` operand. -/
def Condition.fieldExists (f : String) (v : JVal) : Condition :=
  .mk none none none (some f)
    none none none none none none none none none none (some v) none none none none none

/-- A condition node carrying only `allOf`. -/
def Condition.mkAllOf (cs : List Condition) : Condition :=
  .mk (some cs) none none none
    none none none none none none none none none none none none none none none none

/- ## String helpers modelling the JavaScript string operations. -/

/-- `String.prototype.toLowerCase`, modelled characterwise (the inputs of
interest are ASCII). -/
def strToLower (s : String) : String := ⟨s.data.map Char.toLower⟩

/-- Whether `needle` occurs as a contiguous run inside `haystack`
(`Array/String.prototype.includes` on characters). -/
def includesAux (needle : List Char) : List Char → Bool
  | [] => needle.isEmpty
  | c :: rest => needle.isPrefixOf (c :: rest) || includesAux needle rest

/-- `s.includes(sub)` of JavaScript strings. -/
def strIncludes (s sub : String) : Bool := includesAux sub.data s.data

/-- `Set.prototype.add` of a JS `Set` modelled as an insertion-ordered
duplicate-free list. -/
def setAdd (s : List String) (x : String) : List String :=
  if s.contains x then s else s ++ [x]

/- ## CacheManager, from src/infrastructure/cache/cache-manager.ts.
A JS `Map` is an insertion-ordered association list with unique keys:
`Map.set` of a present key updates the value in place keeping its position,
of an absent key appends; `Map.delete` removes; iteration and `keys()` run
in that order. -/

/-- `interface CacheEntry<T>` of cache-manager.ts (`timestamp` is the
`Date.now()` at insertion, `ttl` the entry's time to live). -/
structure CacheEntry (α : Type) where
  value : α
  timestamp : Int
  ttl : Int

/-- `Map.prototype.has`. -/
def mapHas {β : Type} (m : List (String × β)) (k : String) : Bool :=
  m.any (fun p => p.1 == k)

/-- `Map.prototype.get`. -/
def mapGet {β : Type} (m : List (String × β)) (k : String) : Option β :=
  (m.find? (fun p => p.1 == k)).map Prod.snd

/-- `Map.prototype.set`: update in place when present, append when absent. -/
def mapSet {β : Type} (m : List (String × β)) (k : String) (v : β) :
    List (String × β) :=
  if mapHas m k then m.map (fun p => if p.1 == k then (k, v) else p)
  else m ++ [(k, v)]

/-- `Map.prototype.delete` (order-preserving removal). -/
def mapDelete {β : Type} (m : List (String × β)) (k : String) :
    List (String × β) :=
  m.filter (fun p => p.1 != k)

/-- The `CacheManager` class state: its `cache` map and constructor fields. -/
structure CacheManager (α : Type) where
  cache : List (String × CacheEntry α)
  maxSize : Nat
  defaultTtl : Int

/-- `CacheManager.set`.  `Date.now()` is the explicit `now`; the optional
per-call ttl models the `ttl?` parameter (`??` is `Option.getD`).  The source
evicts whenever `size >= maxSize`, before looking at `key`, and skips the
eviction when the first key is falsy (the empty string). -/
def CacheManager.set {α : Type} (c : CacheManager α) (key : String) (value : α)
    (now : Int) (ttl : Option Int) : CacheManager α :=
  let actualTtl := ttl.getD c.defaultTtl
  let cache1 :=
    if c.cache.length ≥ c.maxSize then
      match c.cache.head? with
      | some (firstKey, _) =>
          if firstKey ≠ "" then mapDelete c.cache firstKey else c.cache
      | none => c.cache
    else c.cache
  { c with cache := mapSet cache1 key ⟨value, now, actualTtl⟩ }

/-- `CacheManager.get`: lazy expiry check, then delete-and-reinsert to move
the entry to the most-recently-used end.  Returns the value (or a miss) and
the state after the call. -/
def CacheManager.get {α : Type} (c : CacheManager α) (key : String) (now : Int) :
    Option α × CacheManager α :=
  match mapGet c.cache key with
  | none => (none, c)
  | some entry =>
    if now - entry.timestamp > entry.ttl then
      (none, { c with cache := mapDelete c.cache key })
    else
      (some entry.value,
        { c with cache := mapSet (mapDelete c.cache key) key entry })

/- ## PolicyParser, from src/services/policy/policy-parser.ts. -/

/-- The `checkOps` array of `extractFieldChecks`. -/
def checkOps : List String :=
  ["equals", "notEquals", "like", "notLike", "in", "notIn", "exists"]

/-- The `operators` array of `extractConditions`. -/
def conditionOps : List String :=
  ["equals", "notEquals", "like", "notLike", "match", "notMatch",
   "contains", "notContains", "in", "notIn", "exists",
   "less", "lessOrEquals", "greater", "greaterOrEquals"]

/-- The `value` slot of a listed condition: a JSON operand for a field entry,
the whole `count` object for a `count` entry. -/
inductive CValue where
  | jval : JVal → CValue
  | countVal : CountExpr → CValue

/-- Modelled from the spec: `PolicyConditionInfo` of src/types/policy.ts
(file absent from the corpus); fields exactly as `extractConditions` fills
them, with an absent `nested` modelled as `[]`. -/
inductive PolicyConditionInfo where
  | mk (type : String) (operator : String) (field : Option String)
      (value : Option CValue) (nested : List PolicyConditionInfo)

/-- The field entries of one node in the condition listing: one entry per
operator of `conditionOps` present on the node, guarded by the JS truthiness
of `condition.field`. -/
def fieldInfoEntries (c : Condition) : List PolicyConditionInfo :=
  match c.field with
  | some fieldName =>
    if fieldName ≠ "" then
      conditionOps.filterMap (fun op =>
        (c.opVal op).map (fun v =>
          PolicyConditionInfo.mk ("field") op (some fieldName) (some (.jval v)) []))
    else []
  | none => []

mutual
/-- `extractConditions` on a (non-null) node: depth-first, order-preserving
listing.  A logical member yields one entry with the recursively listed
children, a field member one entry per operator present (in `conditionOps`
order), a `count` member one entry nesting its `where` listing. -/
def extractConditionsC : Condition → List PolicyConditionInfo
  | .mk al ao nt f e ne lk nlk mo nmo co nco io nio exo ls lse gt gte cnt =>
    logicalEntries ("allOf") al ++
    logicalEntries ("anyOf") ao ++
    notEntries nt ++
    fieldInfoEntries
      (.mk al ao nt f e ne lk nlk mo nmo co nco io nio exo ls lse gt gte cnt) ++
    countEntries cnt

/-- The single listing entry of a present `allOf`/`anyOf` member. -/
def logicalEntries (op : String) : Option (List Condition) → List PolicyConditionInfo
  | some cs => [.mk ("logical") op none none (extractConditionsList cs)]
  | none => []

/-- The single listing entry of a present `not` member. -/
def notEntries : Option Condition → List PolicyConditionInfo
  | some c2 => [.mk ("logical") ("not") none none (extractConditionsC c2)]
  | none => []

/-- The single listing entry of a present `count` member, nesting the listing
of its `where` sub-condition when present. -/
def countEntries : Option CountExpr → List PolicyConditionInfo
  | some (.mk cf cw) =>
    [.mk ("function") ("count") cf (some (.countVal (.mk cf cw)))
      (whereEntries cw)]
  | none => []

/-- The listing of a `count.where` sub-condition (empty when absent). -/
def whereEntries : Option Condition → List PolicyConditionInfo
  | some w => extractConditionsC w
  | none => []

/-- `flatMap` of the listing over an array of children. -/
def extractConditionsList : List Condition → List PolicyConditionInfo
  | [] => []
  | c :: cs => extractConditionsC c ++ extractConditionsList cs
end

/-- `extractConditions` entry point; the `none` case is the
`if (!condition) return conditions` guard. -/
def extractConditions : Option Condition → List PolicyConditionInfo
  | some c => extractConditionsC c
  | none => []

/-- `FieldCheck` as spec section 3 records it and `extractFieldChecks`
builds it (src/types/policy.ts is absent from the corpus). -/
structure FieldCheck where
  field : String
  operators : List String
  values : List JVal
  required : Bool

/-- The operator/value pairs a single node contributes to its field's
check: the `checkOps` loop body of `extractFieldChecks.processCondition`. -/
def nodeChecks (c : Condition) : List (String × JVal) :=
  checkOps.filterMap (fun op => (c.opVal op).map (fun v => (op, v)))

/-- `required` as computed when a field's entry is first created:
`operators.includes('exists') ? cond.exists === true : false`. -/
def requiredOfNode (c : Condition) : Bool :=
  if ((nodeChecks c).map Prod.fst).contains ("exists") then
    match c.existsOp with
    | some (.bool true) => true
    | _ => false
  else false

/-- The per-node action of `extractFieldChecks.processCondition` on the
`fieldMap`: merge the node's operators/values into the existing entry (which
keeps its `required` flag), or create a new entry. -/
def stepField (m : List (String × FieldCheck)) (c : Condition) :
    List (String × FieldCheck) :=
  match c.field with
  | none => m
  | some f =>
    if f = "" then m
    else
      let pairs := nodeChecks c
      if pairs.isEmpty then m
      else
        match mapGet m f with
        | some fc =>
            mapSet m f { fc with
              operators := fc.operators ++ pairs.map Prod.fst,
              values := fc.values ++ pairs.map Prod.snd }
        | none =>
            m ++ [(f, ⟨f, pairs.map Prod.fst, pairs.map Prod.snd, requiredOfNode c⟩)]

mutual
/-- `extractFieldChecks.processCondition` on a (non-null) node: the node's
own field first, then the recursion into `allOf`, `anyOf` and `not`,
threading the map. -/
def processConditionC (m : List (String × FieldCheck)) :
    Condition → List (String × FieldCheck)
  | .mk al ao nt f e ne lk nlk mo nmo co nco io nio exo ls lse gt gte cnt =>
    let m1 := stepField m
      (.mk al ao nt f e ne lk nlk mo nmo co nco io nio exo ls lse gt gte cnt)
    let m2 := processConditionListOpt m1 al
    let m3 := processConditionListOpt m2 ao
    processConditionOpt m3 nt

/-- Recursion of the field-check visitor into a possibly-absent child
(`if (cond.not) processCondition(cond.not)`). -/
def processConditionOpt (m : List (String × FieldCheck)) :
    Option Condition → List (String × FieldCheck)
  | some c => processConditionC m c
  | none => m

/-- Recursion of the field-check visitor into a possibly-absent array of
children (`if (cond.allOf) cond.allOf.forEach(processCondition)`). -/
def processConditionListOpt (m : List (String × FieldCheck)) :
    Option (List Condition) → List (String × FieldCheck)
  | some cs => processConditionList m cs
  | none => m

/-- `forEach(processCondition)` threading the map left to right. -/
def processConditionList (m : List (String × FieldCheck)) :
    List Condition → List (String × FieldCheck)
  | [] => m
  | c :: cs => processConditionList (processConditionC m c) cs
end

/-- `extractFieldChecks`: run the visitor on an empty map and return
`Array.from(fieldMap.values())`; the `none` case of the argument is the
`if (!cond) return` guard. -/
def extractFieldChecks (condition : Option Condition) : List FieldCheck :=
  (processConditionOpt [] condition).map Prod.snd

mutual
/-- `extractLogicalOperators.processCondition` on a (non-null) node: each
logical keyword is added to the set right before recursing into its children
(so the first-encounter order interleaves with the recursion). -/
def processLogicalC (ops : List String) : Condition → List String
  | .mk al ao nt _ _ _ _ _ _ _ _ _ _ _ _ _ _ _ _ _ =>
    let ops1 := processLogicalListOpt ops ("allOf") al
    let ops2 := processLogicalListOpt ops1 ("anyOf") ao
    processLogicalNot ops2 nt

/-- `if (cond.allOf) { operators.add('allOf'); cond.allOf.forEach(...) }`
(and the same for `anyOf`). -/
def processLogicalListOpt (ops : List String) (op : String) :
    Option (List Condition) → List String
  | some cs => processLogicalList (setAdd ops op) cs
  | none => ops

/-- `if (cond.not) { operators.add('not'); processCondition(cond.not) }`. -/
def processLogicalNot (ops : List String) : Option Condition → List String
  | some c2 => processLogicalC (setAdd ops ("not")) c2
  | none => ops

/-- `forEach(processCondition)` threading the operator set left to right. -/
def processLogicalList (ops : List String) : List Condition → List String
  | [] => ops
  | c :: cs => processLogicalList (processLogicalC ops c) cs
end

/-- `extractLogicalOperators`: run the visitor on an empty set and return
`Array.from(operators)`; `none` is the `if (!cond) return` guard. -/
def extractLogicalOperators (condition : Option Condition) : List String :=
  match condition with
  | some c => processLogicalC [] c
  | none => []

/-- The match of `/^(Microsoft\.\w+\/\w+)/` against a field name: the literal
prefix `Microsoft.`, one or more word characters (greedy), `/`, one or more
word characters (greedy).  Returns the captured group. -/
def matchTypePath (f : String) : Option String :=
  let lead := "Microsoft.".data
  if lead.isPrefixOf f.data then
    let rest := f.data.drop lead.length
    let w1 := rest.takeWhile (fun ch => ch.isAlphanum || ch == '_')
    let rest1 := rest.dropWhile (fun ch => ch.isAlphanum || ch == '_')
    if w1.isEmpty then none
    else
      match rest1 with
      | '/' :: rest2 =>
        let w2 := rest2.takeWhile (fun ch => ch.isAlphanum || ch == '_')
        if w2.isEmpty then none
        else some ⟨lead ++ w1 ++ '/' :: w2⟩
      | _ => none
  else none

/-- `if (condition.equals && typeof condition.equals === 'string')
resourceTypes.add(condition.equals)` (a truthy string operand). -/
def addTypeEquals (s : List String) (c : Condition) : List String :=
  match c.equals with
  | some (.str v) => if v ≠ "" then setAdd s v else s
  | _ => s

/-- `if (condition.in && Array.isArray(condition.in))` add each string member. -/
def addTypeIn (s : List String) (c : Condition) : List String :=
  match c.inOp with
  | some (.arr vs) =>
    vs.foldl (fun acc v =>
      match v with
      | .str t => setAdd acc t
      | _ => acc) s
  | _ => s

/-- The field-path check: a truthy field matching
`/^(Microsoft\.\w+\/\w+)/` adds the captured prefix path. -/
def addFieldPathMatch (s : List String) (c : Condition) : List String :=
  match c.field with
  | some f =>
    if f ≠ "" then
      match matchTypePath f with
      | some p => setAdd s p
      | none => s
    else s
  | none => s

/-- The per-node action of `extractResourceTypes.extractFromCondition` on the
`resourceTypes` set: literal `type` operands of `equals` (a truthy string)
and `in` (string members of the array), then the `Microsoft.<word>/<word>`
field-path match. -/
def stepResourceTypes (s : List String) (c : Condition) : List String :=
  let s1 :=
    if c.field == some ("type") then addTypeIn (addTypeEquals s c) c else s
  addFieldPathMatch s1 c

mutual
/-- `extractResourceTypes.extractFromCondition` on a (non-null) node: the
node's own checks first, then the recursion into `allOf`, `anyOf` and `not`
(`count.where` is not visited). -/
def extractFromConditionC (s : List String) : Condition → List String
  | .mk al ao nt f e ne lk nlk mo nmo co nco io nio exo ls lse gt gte cnt =>
    let s1 := stepResourceTypes s
      (.mk al ao nt f e ne lk nlk mo nmo co nco io nio exo ls lse gt gte cnt)
    let s2 := extractFromConditionListOpt s1 al
    let s3 := extractFromConditionListOpt s2 ao
    extractFromConditionOpt s3 nt

/-- Recursion of the resource-type visitor into a possibly-absent child. -/
def extractFromConditionOpt (s : List String) : Option Condition → List String
  | some c => extractFromConditionC s c
  | none => s

/-- Recursion of the resource-type visitor into a possibly-absent array. -/
def extractFromConditionListOpt (s : List String) :
    Option (List Condition) → List String
  | some cs => extractFromConditionList s cs
  | none => s

/-- `forEach(extractFromCondition)` threading the set left to right. -/
def extractFromConditionList (s : List String) : List Condition → List String
  | [] => s
  | c :: cs => extractFromConditionList (extractFromConditionC s c) cs
end

/-- The per-node action of `inferResourceTypesFromFields.collectFields`. -/
def stepCollectField (s : List String) (c : Condition) : List String :=
  match c.field with
  | some f => if f ≠ "" then setAdd s f else s
  | none => s

mutual
/-- `inferResourceTypesFromFields.collectFields` on a (non-null) node. -/
def collectFieldsC (s : List String) : Condition → List String
  | .mk al ao nt f e ne lk nlk mo nmo co nco io nio exo ls lse gt gte cnt =>
    let s1 := stepCollectField s
      (.mk al ao nt f e ne lk nlk mo nmo co nco io nio exo ls lse gt gte cnt)
    let s2 := collectFieldsListOpt s1 al
    let s3 := collectFieldsListOpt s2 ao
    collectFieldsOpt s3 nt

/-- Recursion of the field collector into a possibly-absent child. -/
def collectFieldsOpt (s : List String) : Option Condition → List String
  | some c => collectFieldsC s c
  | none => s

/-- Recursion of the field collector into a possibly-absent array. -/
def collectFieldsListOpt (s : List String) : Option (List Condition) → List String
  | some cs => collectFieldsList s cs
  | none => s

/-- `forEach(collectFields)` threading the set left to right. -/
def collectFieldsList (s : List String) : List Condition → List String
  | [] => s
  | c :: cs => collectFieldsList (collectFieldsC s c) cs
end

/-- The `commonResourceTypes` set of the `PolicyParser` class, in its
authored order. -/
def commonResourceTypes : List String :=
  ["Microsoft.Compute/virtualMachines",
   "Microsoft.Storage/storageAccounts",
   "Microsoft.Network/virtualNetworks",
   "Microsoft.Network/networkSecurityGroups",
   "Microsoft.Web/sites",
   "Microsoft.KeyVault/vaults",
   "Microsoft.ContainerInstance/containerGroups",
   "Microsoft.ContainerRegistry/registries"]

/-- The `fieldPatterns` map of `inferResourceTypesFromFields`, in its
authored order (`*` marks the common-types wildcard). -/
def fieldPatterns : List (String × List String) :=
  [("location", ["*"]),
   ("tags", ["*"]),
   ("sku", ["Microsoft.Compute/virtualMachines", "Microsoft.Storage/storageAccounts"]),
   ("properties.encryption",
     ["Microsoft.Storage/storageAccounts", "Microsoft.KeyVault/vaults"]),
   ("properties.networkAcls", ["Microsoft.Storage/storageAccounts"]),
   ("properties.supportsHttpsTrafficOnly", ["Microsoft.Storage/storageAccounts"]),
   ("properties.minimumTlsVersion", ["Microsoft.Storage/storageAccounts"])]

/-- `inferResourceTypesFromFields` (tier 2): collect the set of field names
in the tree, match each against `fieldPatterns` by substring, union the
mapped type lists, expanding `*` to `commonResourceTypes`. -/
def inferResourceTypesFromFields (condition : Option Condition) : List String :=
  let foundFields := match condition with
    | some c => collectFieldsC [] c
    | none => []
  foundFields.foldl (fun inferred field =>
    fieldPatterns.foldl (fun inferred2 pat =>
      if strIncludes field pat.1 then
        pat.2.foldl (fun inferred3 t =>
          if t == "*" then commonResourceTypes.foldl setAdd inferred3
          else setAdd inferred3 t) inferred2
      else inferred2) inferred) []

/-- `PolicyEffectDetails`: the members of `policyRule.then.details` the
parser reads.  Modelled from the spec: the declaring src/types/policy.ts is
absent from the corpus; the shape follows the parser's accesses. -/
structure PolicyEffectDetails where
  roleDefinitionIds : Option (List JVal)
  deployment : Option JVal
  operations : Option (List JVal)

/-- `policyRule.then`.  Modelled from the spec: src/types/policy.ts is
absent; the effect is the raw string (possibly a parameter reference). -/
structure PolicyThen where
  effect : Option String
  details : Option PolicyEffectDetails

/-- `policyRule`.  Modelled from the spec: `if` holds the condition tree,
`then` the effect clause (`if`/`then` are Lean keywords, hence the names). -/
structure PolicyRule where
  ifCond : Option Condition
  thenClause : Option PolicyThen

/-- `extractResourceTypes`: tier 1 collects literal types from the tree; if
that set is empty, tier 2 (`inferResourceTypesFromFields`) runs instead. -/
def extractResourceTypes (policyRule : PolicyRule) : List String :=
  let resourceTypes := match policyRule.ifCond with
    | some c => extractFromConditionC [] c
    | none => []
  if resourceTypes.length = 0 then inferResourceTypesFromFields policyRule.ifCond
  else resourceTypes

/-- `PolicyEffectInfo` as `extractEffects` fills it.  Modelled from the
spec: src/types/policy.ts is absent from the corpus. -/
structure PolicyEffectInfo where
  effect : String
  hasDetails : Bool
  requiresRoleDefinitions : Bool
  deploysResources : Bool
  modifiesResources : Bool

/-- `extractEffects`: at most one entry, produced when `policyRule.then` and
its `effect` are truthy.  `deploysResources` needs the literal effect string
`deployIfNotExists` and a truthy `details.deployment`; `modifiesResources`
the literal `modify` and a non-empty `details.operations`. -/
def extractEffects (policyRule : PolicyRule) : List PolicyEffectInfo :=
  match policyRule.thenClause with
  | none => []
  | some t =>
    match t.effect with
    | none => []
    | some effect =>
      if effect = "" then []
      else
        let details := t.details
        [{ effect := effect,
           hasDetails := details.isSome,
           requiresRoleDefinitions :=
             match details with
             | some d =>
               match d.roleDefinitionIds with
               | some l => !l.isEmpty
               | none => false
             | none => false,
           deploysResources :=
             effect == "deployIfNotExists" &&
               (match details with
                | some d =>
                  match d.deployment with
                  | some v => v.truthy
                  | none => false
                | none => false),
           modifiesResources :=
             effect == "modify" &&
               (match details with
                | some d =>
                  match d.operations with
                  | some l => !l.isEmpty
                  | none => false
                | none => false) }]

/-- `assessComplexity` of the policy parser: thresholds on the number of
listed conditions, distinct logical operators and distinct field checks. -/
def assessComplexity (conditions : List PolicyConditionInfo)
    (logicalOperators : List String) (fieldChecks : List FieldCheck) : String :=
  let totalConditions := conditions.length
  let logicalOpCount := logicalOperators.length
  let fieldCount := fieldChecks.length
  if totalConditions ≤ 3 ∧ logicalOpCount ≤ 1 ∧ fieldCount ≤ 2 then "simple"
  else if totalConditions ≤ 8 ∧ logicalOpCount ≤ 3 ∧ fieldCount ≤ 5 then "moderate"
  else "complex"

/-- `PolicyRuleAnalysis`.  Modelled from the spec: src/types/policy.ts is
absent from the corpus; fields exactly as `analyzeRules` fills them. -/
structure PolicyRuleAnalysis where
  conditions : List PolicyConditionInfo
  logicalOperators : List String
  fieldChecks : List FieldCheck
  complexity : String

/-- `analyzeRules`: the three views of `policyRule.if` plus their complexity
classification. -/
def analyzeRules (policyRule : PolicyRule) : PolicyRuleAnalysis :=
  let conditions := extractConditions policyRule.ifCond
  let fieldChecks := extractFieldChecks policyRule.ifCond
  let logicalOperators := extractLogicalOperators policyRule.ifCond
  { conditions := conditions,
    logicalOperators := logicalOperators,
    fieldChecks := fieldChecks,
    complexity := assessComplexity conditions logicalOperators fieldChecks }

/-- `parameter.metadata` of a policy parameter. -/
structure ParameterMetadata where
  displayName : Option String
  description : Option String

/-- One entry of `properties.parameters`.  Modelled from the spec:
src/types/policy.ts is absent; the shape follows the parser's accesses. -/
structure ParameterSpec where
  type : Option String
  metadata : Option ParameterMetadata
  allowedValues : Option (List JVal)
  defaultValue : Option JVal

/-- `PolicyParameterInfo` as `extractParameters` fills it. -/
structure PolicyParameterInfo where
  name : String
  type : Option String
  displayName : Option String
  description : Option String
  required : Bool
  allowedValues : Option (List JVal)
  defaultValue : Option JVal

/-- `extractParameters`: `Object.entries(parameters).map(...)`; `required`
is `param.defaultValue === undefined`. -/
def extractParameters (parameters : List (String × ParameterSpec)) :
    List PolicyParameterInfo :=
  parameters.map (fun p =>
    { name := p.1,
      type := p.2.type,
      displayName := p.2.metadata.bind (fun md => md.displayName),
      description := p.2.metadata.bind (fun md => md.description),
      required := p.2.defaultValue.isNone,
      allowedValues := p.2.allowedValues,
      defaultValue := p.2.defaultValue })

/-- `properties.metadata` of a policy definition. -/
structure PolicyMetadataBlock where
  version : Option String
  category : Option String
  preview : Option Bool
  deprecated : Option Bool

/-- `properties` of an `AzurePolicyDefinition`.  Modelled from the spec:
src/types/policy.ts is absent; the shape follows the parser's accesses. -/
structure PolicyProperties where
  displayName : Option String
  description : Option String
  policyType : Option String
  mode : Option String
  metadata : Option PolicyMetadataBlock
  parameters : Option (List (String × ParameterSpec))
  policyRule : PolicyRule

/-- `AzurePolicyDefinition`. -/
structure AzurePolicyDefinition where
  id : Option String
  name : Option String
  properties : PolicyProperties

/-- `ParsedPolicy` as `analyzePolicyDefinition` fills it. -/
structure ParsedPolicy where
  id : String
  name : String
  displayName : Option String
  description : Option String
  category : String
  policyType : Option String
  mode : Option String
  version : Option String
  deprecated : Bool
  preview : Bool
  parameters : List PolicyParameterInfo
  rules : PolicyRuleAnalysis
  resourceTypes : List String
  effects : List PolicyEffectInfo

/-- JavaScript `a || b` on an optional string: the default is used when `a`
is absent or the empty string (falsy). -/
def orFalsy (o : Option String) (d : String) : String :=
  match o with
  | some s => if s = "" then d else s
  | none => d

/-- `analyzePolicyDefinition`: assemble the `ParsedPolicy` record, defaulting
falsy identity/metadata members exactly as the source's `||` chains do. -/
def analyzePolicyDefinition (policy : AzurePolicyDefinition) (id : Option String) :
    ParsedPolicy :=
  let props := policy.properties
  { id := orFalsy id (orFalsy policy.id ("unknown")),
    name := orFalsy policy.name ("unknown"),
    displayName := props.displayName,
    description := props.description,
    category := orFalsy (props.metadata.bind (fun md => md.category)) ("General"),
    policyType := props.policyType,
    mode := props.mode,
    version := props.metadata.bind (fun md => md.version),
    deprecated := (props.metadata.bind (fun md => md.deprecated)).getD false,
    preview := (props.metadata.bind (fun md => md.preview)).getD false,
    parameters := extractParameters (props.parameters.getD []),
    rules := analyzeRules props.policyRule,
    resourceTypes := extractResourceTypes props.policyRule,
    effects := extractEffects props.policyRule }

/-- The observable shape of a thrown JS error: its class name and, for the
repository's `McpError` subclasses, the `code` member.  The message text is
host-dependent and not modelled. -/
structure ThrownError where
  name : String
  code : Option String

/-- The `PolicyParsingError` class of the repository's error module: name
`PolicyParsingError`, code `POLICY_PARSING_ERROR`. -/
def policyParsingErrorShape : ThrownError :=
  { name := "PolicyParsingError", code := some ("POLICY_PARSING_ERROR") }

/-- `parsePolicy`: `JSON.parse` then `analyzePolicyDefinition`.  The host
JSON parser is external and abstracted as `jsonParse`, `none` standing for
the parse exception on input that is not structurally valid JSON; on that
path the source throws `new Error(...)` — a plain `Error`, not one of the
repository's `McpError` subclasses, so no `code` member. -/
def parsePolicy (jsonParse : String → Option AzurePolicyDefinition)
    (policyJson : String) (id : Option String) : Except ThrownError ParsedPolicy :=
  match jsonParse policyJson with
  | none => .error { name := "Error", code := none }
  | some policyDef => .ok (analyzePolicyDefinition policyDef id)

/- ## The visit order of the parser's recursive set/map visitors.
`extractFieldChecks.processCondition`, `extractResourceTypes.extractFromCondition`
and `collectFields` all act on the current node first and then recurse into
`allOf`, `anyOf` and `not` in that order; `flattenCondC` lists the nodes they
visit, in visit order, so each visitor is the fold of its per-node action
over this list (proved below). -/

mutual
/-- The nodes of a condition tree in the visitors' depth-first visit order. -/
def flattenCondC : Condition → List Condition
  | .mk al ao nt f e ne lk nlk mo nmo co nco io nio exo ls lse gt gte cnt =>
    Condition.mk al ao nt f e ne lk nlk mo nmo co nco io nio exo ls lse gt gte cnt ::
      (flattenListOpt al ++ flattenListOpt ao ++ flattenOpt nt)

/-- Visit order of a possibly-absent child. -/
def flattenOpt : Option Condition → List Condition
  | some c => flattenCondC c
  | none => []

/-- Visit order of a possibly-absent array of children. -/
def flattenListOpt : Option (List Condition) → List Condition
  | some cs => flattenCondList cs
  | none => []

/-- Visit order of an array of children. -/
def flattenCondList : List Condition → List Condition
  | [] => []
  | c :: cs => flattenCondC c ++ flattenCondList cs
end

/-- Whether a node carries an `exists` comparison whose operand is literally
`true` for the given field — the claims' notion of "an `exists = true` check
for this field". -/
def nodeExistsTrue (n : Condition) (f : String) : Bool :=
  n.field == some f &&
    (match n.existsOp with
     | some (.bool true) => true
     | _ => false)

/-- Whether an `exists = true` check for the field occurs anywhere in the
tree (the claims' left-hand side for `required`). -/
def existsTrueSeenFor (c : Condition) (f : String) : Bool :=
  (flattenCondC c).any (fun n => nodeExistsTrue n f)

/-- Whether a node contributes operator/value pairs to the check of field
`f`: it names that (truthy) field and carries at least one `checkOps`
operator. -/
def contributesTo (n : Condition) (f : String) : Bool :=
  n.field == some f && !(f == "") && !(nodeChecks n).isEmpty

/-- The nodes contributing to field `f`, in visit order. -/
def contribNodes (f : String) (l : List Condition) : List Condition :=
  l.filter (fun n => contributesTo n f)

/-- The operator/value pairs accumulated for field `f` over a visit list. -/
def contribPairs (f : String) (l : List Condition) : List (String × JVal) :=
  (contribNodes f l).flatMap nodeChecks

/- ## Template records and the search engine, from src/types/azure.ts
(`searchTemplates`, `sortTemplates`, `inferCategory`) over the interfaces of
src/types/github.ts. -/

/-- `TemplateMetadata` of src/types/github.ts. -/
structure TemplateMetadata where
  description : String
  category : String
  tags : List String
  author : String
  version : String
  createdDate : Int
  updatedDate : Int

/-- One entry of `BicepTemplate.resourceTypes`. -/
structure TemplateResourceType where
  type : String
  provider : String
  properties : List String

/-- One entry of `BicepTemplate.parameters`. -/
structure TemplateParameter where
  name : String
  type : String
  description : Option String
  defaultValue : Option JVal
  allowedValues : Option (List JVal)

/-- One entry of `BicepTemplate.outputs`. -/
structure TemplateOutput where
  name : String
  type : String
  description : Option String

/-- `BicepTemplate` of src/types/github.ts. -/
structure BicepTemplate where
  id : String
  name : String
  path : String
  fileName : String
  size : Int
  content : String
  metadata : TemplateMetadata
  resourceTypes : List TemplateResourceType
  parameters : List TemplateParameter
  outputs : List TemplateOutput
  lastModified : Int
  complexity : String

/-- The `dataSource` block of a `TemplateIndex`. -/
structure DataSourceConfig where
  owner : String
  repo : String
  branch : String
  basePath : Option String

/-- One entry of `TemplateIndex.resourceTypes`. -/
structure ResourceTypeIndexEntry where
  type : String
  templateCount : Int
  commonProperties : List String
  provider : String

/-- `TemplateIndex` of src/types/github.ts. -/
structure TemplateIndex where
  lastUpdated : Int
  totalTemplates : Int
  templates : List BicepTemplate
  categories : List (String × Int)
  resourceTypes : List (String × ResourceTypeIndexEntry)
  dataSource : DataSourceConfig

/-- `TemplateSearchCriteria` of src/types/github.ts (all members optional). -/
structure TemplateSearchCriteria where
  categories : Option (List String)
  resourceTypes : Option (List String)
  keywords : Option (List String)
  maxComplexity : Option String
  sortBy : Option String
  limit : Option Int

/-- The `complexityOrder` lookup object (its keys are exactly the three
complexity literals; other strings never occur by the TS types). -/
def complexityLevel (s : String) : Int :=
  if s = "simple" then 1
  else if s = "moderate" then 2
  else if s = "complex" then 3
  else 0

/-- Insert into a sorted list, keeping earlier elements first among equals. -/
def insertSorted {α : Type} (le : α → α → Bool) (x : α) : List α → List α
  | [] => [x]
  | y :: ys => if le x y then x :: y :: ys else y :: insertSorted le x ys

/-- A stable sort (insertion sort), modelling JS `Array.prototype.sort`
with a consistent comparator (the ECMAScript sort is stable). -/
def stableSort {α : Type} (le : α → α → Bool) (l : List α) : List α :=
  l.foldr (insertSorted le) []

/-- `sortTemplates`: the four comparator cases; the default case returns the
array unsorted.  `localeCompare` is modelled as code-point order. -/
def sortTemplates (templates : List BicepTemplate) (sortBy : String) :
    List BicepTemplate :=
  if sortBy = "name" then
    stableSort (fun a b => a.name ≤ b.name) templates
  else if sortBy = "complexity" then
    stableSort (fun a b => complexityLevel a.complexity ≤ complexityLevel b.complexity)
      templates
  else if sortBy = "size" then
    stableSort (fun a b => a.size ≤ b.size) templates
  else if sortBy = "resources" then
    stableSort (fun a b => b.resourceTypes.length ≤ a.resourceTypes.length) templates
  else templates

/-- The keyword-search blob of one template:
`` `${t.name} ${t.metadata.description} ${t.metadata.tags.join(' ')}`.toLowerCase() ``. -/
def templateSearchText (t : BicepTemplate) : String :=
  strToLower
    (t.name ++ " " ++ t.metadata.description ++ " " ++
      String.intercalate (" ") t.metadata.tags)

/-- `searchTemplates`.  In the source, `results` starts as a reference to
`templateIndex.templates`; each applied filter replaces it by a fresh array,
while `Array.prototype.sort` sorts the referenced array in place.  The
embedding threads an aliasing flag so that the in-place sort's effect on the
index is captured: it returns the result list together with the state of the
index after the call. -/
def searchTemplates (templateIndex : TemplateIndex)
    (criteria : TemplateSearchCriteria) : List BicepTemplate × TemplateIndex :=
  let r0 : List BicepTemplate × Bool := (templateIndex.templates, true)
  let r1 : List BicepTemplate × Bool := match criteria.categories with
    | some cats =>
      if 0 < cats.length then
        (r0.1.filter (fun t => cats.contains t.metadata.category), false)
      else r0
    | none => r0
  let r2 : List BicepTemplate × Bool := match criteria.resourceTypes with
    | some rts =>
      if 0 < rts.length then
        (r1.1.filter (fun t =>
          t.resourceTypes.any (fun rt =>
            rts.any (fun searchType =>
              strIncludes rt.type searchType || strIncludes searchType rt.type))),
         false)
      else r1
    | none => r1
  let r3 : List BicepTemplate × Bool := match criteria.keywords with
    | some kws =>
      if 0 < kws.length then
        (r2.1.filter (fun t =>
          kws.any (fun keyword =>
            strIncludes (templateSearchText t) (strToLower keyword))), false)
      else r2
    | none => r2
  let r4 : List BicepTemplate × Bool := match criteria.maxComplexity with
    | some mc =>
      if mc ≠ "" then
        (r3.1.filter (fun t => complexityLevel t.complexity ≤ complexityLevel mc),
         false)
      else r3
    | none => r3
  let r5 : List BicepTemplate × List BicepTemplate := match criteria.sortBy with
    | some sb =>
      if sb ≠ "" then
        let sorted := sortTemplates r4.1 sb
        (sorted, if r4.2 then sorted else templateIndex.templates)
      else (r4.1, templateIndex.templates)
    | none => (r4.1, templateIndex.templates)
  let results := match criteria.limit with
    | some n => if 0 < n then r5.1.take n.toNat else r5.1
    | none => r5.1
  (results, { templateIndex with templates := r5.2 })

/-- The `categoryKeywords` table of `inferCategory`, in its authored order
(`Object.entries` of a string-keyed object literal preserves it). -/
def categoryKeywords : List (String × List String) :=
  [("Compute", ["vm", "virtual machine", "compute", "scale set"]),
   ("Storage", ["storage", "blob", "file", "queue", "table"]),
   ("Network", ["network", "vnet", "subnet", "nsg", "load balancer"]),
   ("Database", ["sql", "database", "cosmos", "mysql", "postgresql"]),
   ("Web", ["web", "app service", "function", "logic app"]),
   ("Identity", ["active directory", "identity", "rbac", "managed identity"]),
   ("Security", ["key vault", "security", "certificate", "firewall"]),
   ("Monitoring", ["monitor", "log analytics", "application insights"]),
   ("Container", ["container", "kubernetes", "aks", "docker"]),
   ("AI", ["cognitive", "machine learning", "ai", "bot"])]

/-- The lowercased text blob `inferCategory` scans:
`` `${path} ${content} ${description}`.toLowerCase() ``. -/
def categoryText (path content description : String) : String :=
  strToLower (path ++ " " ++ content ++ " " ++ description)

/-- `inferCategory`: the first category of `categoryKeywords` with any
keyword occurring in the text blob, else `General`. -/
def inferCategory (path content description : String) : String :=
  let text := categoryText path content description
  match categoryKeywords.find?
      (fun ck => ck.2.any (fun keyword => strIncludes text keyword)) with
  | some ck => ck.1
  | none => "General"

/- ## Concrete inputs used by the counterexamples and witnesses. -/

/-- An empty two-slot cache. -/
def cacheEx0 : CacheManager Nat :=
  { cache := [], maxSize := 2, defaultTtl := 1000 }

/-- The cache after `set("a", 1)` at time 0 and `set("b", 2)` at time 1:
at capacity, holding `a` then `b` in insertion order. -/
def cacheEx2 : CacheManager Nat :=
  (cacheEx0.set ("a") 1 0 none).set ("b") 2 1 none

/-- A one-entry cache used to exercise `get`. -/
def cacheEx1 : CacheManager Nat :=
  { cache := [("a", ⟨7, 0, 10⟩), ("b", ⟨8, 0, 10⟩)], maxSize := 4, defaultTtl := 10 }

/-- `field a equals "x"` followed by `field a exists true` — the same field
checked twice, with the `exists = true` check second. -/
def condPairEqFirst : List Condition :=
  [Condition.fieldEquals ("a") (.str "x"),
   Condition.fieldExists ("a") (.bool true)]

/-- The same two checks in the opposite order. -/
def condPairExFirst : List Condition :=
  [Condition.fieldExists ("a") (.bool true),
   Condition.fieldEquals ("a") (.str "x")]

/-- An `allOf` tree whose `exists = true` check of field `a` comes second. -/
def condExSecondTree : Condition := Condition.mkAllOf condPairEqFirst

/-- An `allOf` tree whose `exists = true` check of field `a` comes first. -/
def condExFirstTree : Condition := Condition.mkAllOf condPairExFirst

/-- A root with `allOf` of one child plus two operators on its own field:
3 listed conditions, 1 logical operator, 2 field checks. -/
def condC6Simple : Condition :=
  .mk (some [Condition.fieldEquals ("g") (.str "y")]) none none (some ("f"))
    (some (.str "x")) (some (.str "z")) none none none none none none none none
    none none none none none none

/-- As `condC6Simple` with a third operator on the root field: 4 listed
conditions, same logical operators and field checks. -/
def condC6Moderate : Condition :=
  .mk (some [Condition.fieldEquals ("g") (.str "y")]) none none (some ("f"))
    (some (.str "x")) (some (.str "z")) (some (.str "w")) none none none none
    none none none none none none none none none

/-- Policy rule around `condC6Simple`. -/
def ruleC6Simple : PolicyRule := { ifCond := some condC6Simple, thenClause := none }

/-- Policy rule around `condC6Moderate`. -/
def ruleC6Moderate : PolicyRule :=
  { ifCond := some condC6Moderate, thenClause := none }

/-- A `then` clause with the literal `deployIfNotExists` effect and a
deployment block. -/
def thenDeploy : PolicyThen :=
  { effect := some ("deployIfNotExists"),
    details := some
      { roleDefinitionIds := none, deployment := some (.obj []), operations := none } }

/-- Policy rule whose `then` is `thenDeploy`. -/
def ruleDeploy : PolicyRule := { ifCond := none, thenClause := some thenDeploy }

/-- Policy rule whose only resource-type hint is a field path starting with
`Microsoft.Sql/servers`. -/
def ruleFieldPath : PolicyRule :=
  { ifCond := some (Condition.fieldEquals ("Microsoft.Sql/servers/version") (.str "12.0")),
    thenClause := none }

/-- Shared metadata for the search-engine templates. -/
def tplMetaEx : TemplateMetadata :=
  { description := "", category := "General", tags := [], author := "",
    version := "", createdDate := 0, updatedDate := 0 }

/-- A 5000-byte template named `a`. -/
def tplA : BicepTemplate :=
  { id := "a", name := "a", path := "a.bicep", fileName := "a.bicep",
    size := 5000, content := "", metadata := tplMetaEx, resourceTypes := [],
    parameters := [], outputs := [], lastModified := 0, complexity := "simple" }

/-- A 2000-byte template named `b`. -/
def tplB : BicepTemplate :=
  { id := "b", name := "b", path := "b.bicep", fileName := "b.bicep",
    size := 2000, content := "", metadata := tplMetaEx, resourceTypes := [],
    parameters := [], outputs := [], lastModified := 0, complexity := "simple" }

/-- An index holding `tplA` then `tplB` (sizes 5000 then 2000). -/
def idxAB : TemplateIndex :=
  { lastUpdated := 0, totalTemplates := 2, templates := [tplA, tplB],
    categories := [], resourceTypes := [],
    dataSource := { owner := "o", repo := "r", branch := "main", basePath := none } }

/-- Criteria with a sort key and no filters. -/
def sortBySizeCriteria : TemplateSearchCriteria :=
  { categories := none, resourceTypes := none, keywords := none,
    maxComplexity := none, sortBy := some ("size"), limit := none }

/- ## Association-list (JS `Map`) lemmas. -/

theorem mapHas_eq_false_iff {β : Type} (m : List (String × β)) (k : String) :
    mapHas m k = false ↔ ∀ p ∈ m, p.1 ≠ k := by
  simp [mapHas, List.any_eq_true]

theorem mapGet_eq_none_of_not_has {β : Type} {m : List (String × β)} {k : String}
    (h : mapHas m k = false) : mapGet m k = none := by
  rw [mapHas_eq_false_iff] at h
  have : m.find? (fun p => p.1 == k) = none := by
    rw [List.find?_eq_none]
    intro p hp
    simpa using h p hp
  simp [mapGet, this]

theorem mapHas_eq_false_of_not_mem {β : Type} {m : List (String × β)} {k : String}
    (h : k ∉ m.map Prod.fst) : mapHas m k = false := by
  rw [mapHas_eq_false_iff]
  intro p hp hk
  exact h (List.mem_map.mpr ⟨p, hp, hk⟩)

theorem mapSet_of_not_has {β : Type} {m : List (String × β)} {k : String} (v : β)
    (h : mapHas m k = false) : mapSet m k v = m ++ [(k, v)] := by
  simp [mapSet, h]

theorem mapDelete_of_not_has {β : Type} {m : List (String × β)} {k : String}
    (h : mapHas m k = false) : mapDelete m k = m := by
  rw [mapHas_eq_false_iff] at h
  unfold mapDelete
  apply List.filter_eq_self.mpr
  intro p hp
  simpa using h p hp

theorem mapGet_mapDelete_self {β : Type} (m : List (String × β)) (k : String) :
    mapGet (mapDelete m k) k = none := by
  apply mapGet_eq_none_of_not_has
  rw [mapHas_eq_false_iff]
  intro p hp
  have := List.of_mem_filter hp
  simpa using this

theorem mapHas_mapDelete_self {β : Type} (m : List (String × β)) (k : String) :
    mapHas (mapDelete m k) k = false := by
  rw [mapHas_eq_false_iff]
  intro p hp
  have := List.of_mem_filter hp
  simpa using this

theorem mapGet_cons {β : Type} (p : String × β) (m : List (String × β)) (k : String) :
    mapGet (p :: m) k = if p.1 == k then some p.2 else mapGet m k := by
  cases h : p.1 == k <;> simp [mapGet, List.find?_cons, h]

theorem mapGet_update_ne {β : Type} (m : List (String × β)) (k k' : String) (v : β)
    (h : k' ≠ k) :
    mapGet (m.map (fun p => if p.1 == k then (k, v) else p)) k' = mapGet m k' := by
  induction m with
  | nil => rfl
  | cons p m ih =>
    simp only [beq_iff_eq] at ih
    simp only [List.map_cons, mapGet_cons, beq_iff_eq]
    by_cases h1 : p.1 = k
    · have hk : ¬ (k = k') := Ne.symm h
      have hp' : ¬ (p.1 = k') := fun hx => hk (h1 ▸ hx)
      simp [h1, hk, hp', ih]
    · by_cases h2 : p.1 = k'
      · simp [h1, h2, ih, h]
      · simp [h1, h2, ih]

theorem mapGet_append_single_ne {β : Type} (m : List (String × β)) (k k' : String)
    (v : β) (h : k' ≠ k) : mapGet (m ++ [(k, v)]) k' = mapGet m k' := by
  induction m with
  | nil =>
    have hk : ¬ (k = k') := Ne.symm h
    simp [mapGet_cons, mapGet, hk]
  | cons p m ih =>
    simp only [List.cons_append, mapGet_cons, beq_iff_eq] at ih ⊢
    by_cases h2 : p.1 = k' <;> simp [h2, ih]

theorem mapGet_append_single_self {β : Type} (m : List (String × β)) (k : String)
    (v : β) (h : mapHas m k = false) : mapGet (m ++ [(k, v)]) k = some v := by
  induction m with
  | nil => simp [mapGet_cons, mapGet]
  | cons p m ih =>
    simp only [mapHas, List.any_cons, Bool.or_eq_false_iff, beq_eq_false_iff_ne] at h
    simp only [List.cons_append, mapGet_cons, beq_iff_eq]
    simp [h.1, ih (by simpa [mapHas] using h.2)]

theorem mapGet_update_self {β : Type} (m : List (String × β)) (k : String) (v : β)
    (h : mapHas m k = true) :
    mapGet (m.map (fun p => if p.1 == k then (k, v) else p)) k = some v := by
  induction m with
  | nil => simp [mapHas] at h
  | cons p m ih =>
    simp only [beq_iff_eq] at ih
    simp only [List.map_cons, mapGet_cons, beq_iff_eq]
    by_cases h1 : p.1 = k
    · simp [h1]
    · simp only [mapHas, List.any_cons, Bool.or_eq_true, beq_iff_eq] at h
      rcases h with h | h
      · exact absurd h h1
      · simp [h1, ih (by simpa [mapHas] using h)]

theorem mapGet_mapSet_ne {β : Type} (m : List (String × β)) (k k' : String) (v : β)
    (h : k' ≠ k) : mapGet (mapSet m k v) k' = mapGet m k' := by
  unfold mapSet
  by_cases hh : mapHas m k
  · simp only [hh, if_true]
    exact mapGet_update_ne m k k' v h
  · simp only [hh, if_false]
    exact mapGet_append_single_ne m k k' v h

theorem mapGet_mapSet_self {β : Type} (m : List (String × β)) (k : String) (v : β) :
    mapGet (mapSet m k v) k = some v := by
  unfold mapSet
  by_cases hh : mapHas m k
  · simp only [hh, if_true]
    exact mapGet_update_self m k v hh
  · simp only [hh, if_false]
    exact mapGet_append_single_self m k v (by simpa using hh)

/- ## C1: the parse entry point's error on invalid JSON. -/

/-- C1: the claim says `parsePolicy` throws `PolicyParsingError` (code
`POLICY_PARSING_ERROR`) on structurally invalid JSON.  The source instead
throws a plain `new Error(...)`: at a concrete non-JSON input the thrown
error has name `Error` and no code, differing from the repository's
`PolicyParsingError` shape in both components (the error class exists in the
error module but is never used).  The claim's no-silent-default half does
hold: the result is an error, not a defaulted `ParsedPolicy`. -/
theorem C1_parse_rejects_with_plain_error :
    parsePolicy (fun _ => none) ("not valid json") none =
      .error { name := "Error", code := none } ∧
    ("Error" ≠ policyParsingErrorShape.name ∧
      (none : Option String) ≠ policyParsingErrorShape.code) :=
  ⟨rfl, by decide, by decide⟩

/- ## C2: eviction behaviour of `CacheManager.set` at capacity. -/

/-- C2 (amended): with the cache at capacity and a non-empty oldest key,
`set` always evicts the oldest entry first — for a new key the result is
exactly the old entries minus the oldest plus the new entry appended; for a
key already present (and distinct from the oldest) the oldest entry is
evicted all the same, contrary to the original claim's second half. -/
theorem C2_set_always_evicts_oldest {α : Type} (c : CacheManager α) (k : String)
    (v : α) (now : Int) (ttl : Option Int) (k0 : String) (e0 : CacheEntry α)
    (t : List (String × CacheEntry α))
    (hcache : c.cache = (k0, e0) :: t)
    (hnodup : (c.cache.map Prod.fst).Nodup)
    (hcap : c.cache.length = c.maxSize)
    (hk0 : k0 ≠ "") :
    (mapHas c.cache k = false →
      (c.set k v now ttl).cache = t ++ [(k, ⟨v, now, ttl.getD c.defaultTtl⟩)]) ∧
    (mapHas c.cache k = true → k ≠ k0 →
      mapGet (c.set k v now ttl).cache k0 = none) := by
  have hlen : c.cache.length ≥ c.maxSize := le_of_eq hcap.symm
  have hhead : c.cache.head? = some (k0, e0) := by rw [hcache]; rfl
  have hnotmem : k0 ∉ t.map Prod.fst := by
    rw [hcache] at hnodup
    simpa using (List.nodup_cons.mp hnodup).1
  have hdel : mapDelete c.cache k0 = t := by
    rw [hcache]
    unfold mapDelete
    rw [List.filter_cons]
    simp only [bne_self_eq_false]
    exact mapDelete_of_not_has (mapHas_eq_false_of_not_mem hnotmem)
  have hset : (c.set k v now ttl).cache =
      mapSet t k ⟨v, now, ttl.getD c.defaultTtl⟩ := by
    simp only [CacheManager.set, hlen, if_true, hhead]
    rw [if_pos hk0, hdel]
  constructor
  · intro hk
    rw [hset]
    apply mapSet_of_not_has
    rw [hcache] at hk
    simp only [mapHas, List.any_cons, Bool.or_eq_false_iff] at hk
    exact hk.2
  · intro _ hkk
    rw [hset, mapGet_mapSet_ne t k k0 _ (Ne.symm hkk)]
    exact mapGet_eq_none_of_not_has (mapHas_eq_false_of_not_mem hnotmem)

/-- C2 witness: on the concrete at-capacity cache holding `a` then `b`,
setting the new key `c` evicts exactly `a` and appends `c`. -/
theorem C2_set_always_evicts_oldest_witness :
    (cacheEx2.set ("c") 3 2 none).cache =
      [("b", ⟨2, 1, 1000⟩), ("c", ⟨3, 2, 1000⟩)] := by
  have h := (C2_set_always_evicts_oldest cacheEx2 ("c") 3 2 none ("a")
    ⟨1, 0, 1000⟩ ([("b", ⟨2, 1, 1000⟩)]) rfl (by decide) rfl (by decide)).1 rfl
  simpa using h

/-- C2 counterexample: the same at-capacity cache with keys `a` then `b`;
`set` of the already-present key `b` nevertheless evicts `a`, so the claim's
"calling set with a key that is already present does not evict any other
entry" is false at this input. -/
theorem C2_present_key_set_evicts_other :
    cacheEx2.cache.map Prod.fst = ["a", "b"] ∧
    cacheEx2.cache.length = cacheEx2.maxSize ∧
    mapHas cacheEx2.cache ("b") = true ∧
    mapGet ((cacheEx2.set ("b") 3 2 none).cache) ("a") = none :=
  ⟨rfl, rfl, rfl, rfl⟩

/- ## C3: `CacheManager.get` semantics. -/

/-- C3: for a present key, `get` at time `now` returns the stored value and
moves the entry to the most-recently-used end when `now - insertedAt ≤ ttl`,
and deletes the entry reporting a miss when `now - insertedAt > ttl`; `get`
of an absent key is a miss and leaves the cache unchanged. -/
theorem C3_get_lazy_expiry {α : Type} (c : CacheManager α) (k : String) (now : Int) :
    (∀ e : CacheEntry α, mapGet c.cache k = some e →
      ((now - e.timestamp ≤ e.ttl →
        c.get k now =
          (some e.value, { c with cache := mapDelete c.cache k ++ [(k, e)] })) ∧
       (now - e.timestamp > e.ttl →
        c.get k now = (none, { c with cache := mapDelete c.cache k })))) ∧
    (mapGet c.cache k = none → c.get k now = (none, c)) := by
  constructor
  · intro e he
    constructor
    · intro hfresh
      unfold CacheManager.get
      rw [he]
      have : ¬ (now - e.timestamp > e.ttl) := not_lt.mpr hfresh
      simp only [this, if_false]
      rw [mapSet_of_not_has _ (mapHas_mapDelete_self c.cache k)]
    · intro hexp
      unfold CacheManager.get
      rw [he]
      simp only [hexp, if_true]
  · intro he
    unfold CacheManager.get
    rw [he]

/-- C3 witness: on a concrete two-entry cache, a fresh `get` returns the
value and moves the entry to the end, an expired `get` misses and removes
it, and a `get` of an absent key changes nothing. -/
theorem C3_get_lazy_expiry_witness :
    cacheEx1.get ("a") 5 =
      (some 7, { cacheEx1 with cache := [("b", ⟨8, 0, 10⟩), ("a", ⟨7, 0, 10⟩)] }) ∧
    cacheEx1.get ("a") 20 =
      (none, { cacheEx1 with cache := [("b", ⟨8, 0, 10⟩)] }) ∧
    cacheEx1.get ("zz") 5 = (none, cacheEx1) := by
  refine ⟨?_, ?_, (C3_get_lazy_expiry cacheEx1 ("zz") 5).2 rfl⟩
  · have h := ((C3_get_lazy_expiry cacheEx1 ("a") 5).1 ⟨7, 0, 10⟩ rfl).1 (by decide)
    simpa using h
  · have h := ((C3_get_lazy_expiry cacheEx1 ("a") 20).1 ⟨7, 0, 10⟩ rfl).2 (by decide)
    simpa using h

/- ## The visitors as folds over the visit order. -/

mutual
theorem processConditionC_eq_foldl :
    ∀ (m : List (String × FieldCheck)) (c : Condition),
    processConditionC m c = (flattenCondC c).foldl stepField m
  | m, .mk al ao nt f e ne lk nlk mo nmo co nco io nio exo ls lse gt gte cnt => by
    simp only [processConditionC, flattenCondC, List.foldl_cons, List.foldl_append]
    rw [processConditionListOpt_eq_foldl, processConditionListOpt_eq_foldl,
      processConditionOpt_eq_foldl]

theorem processConditionOpt_eq_foldl :
    ∀ (m : List (String × FieldCheck)) (o : Option Condition),
    processConditionOpt m o = (flattenOpt o).foldl stepField m
  | m, some c => by
    simp only [processConditionOpt, flattenOpt]
    exact processConditionC_eq_foldl m c
  | _, none => rfl

theorem processConditionListOpt_eq_foldl :
    ∀ (m : List (String × FieldCheck)) (o : Option (List Condition)),
    processConditionListOpt m o = (flattenListOpt o).foldl stepField m
  | m, some cs => by
    simp only [processConditionListOpt, flattenListOpt]
    exact processConditionList_eq_foldl m cs
  | _, none => rfl

theorem processConditionList_eq_foldl :
    ∀ (m : List (String × FieldCheck)) (cs : List Condition),
    processConditionList m cs = (flattenCondList cs).foldl stepField m
  | _, [] => rfl
  | m, c :: cs => by
    simp only [processConditionList, flattenCondList, List.foldl_append]
    rw [processConditionList_eq_foldl, processConditionC_eq_foldl]
end

mutual
theorem extractFromConditionC_eq_foldl :
    ∀ (s : List String) (c : Condition),
    extractFromConditionC s c = (flattenCondC c).foldl stepResourceTypes s
  | s, .mk al ao nt f e ne lk nlk mo nmo co nco io nio exo ls lse gt gte cnt => by
    simp only [extractFromConditionC, flattenCondC, List.foldl_cons, List.foldl_append]
    rw [extractFromConditionListOpt_eq_foldl, extractFromConditionListOpt_eq_foldl,
      extractFromConditionOpt_eq_foldl]

theorem extractFromConditionOpt_eq_foldl :
    ∀ (s : List String) (o : Option Condition),
    extractFromConditionOpt s o = (flattenOpt o).foldl stepResourceTypes s
  | s, some c => by
    simp only [extractFromConditionOpt, flattenOpt]
    exact extractFromConditionC_eq_foldl s c
  | _, none => rfl

theorem extractFromConditionListOpt_eq_foldl :
    ∀ (s : List String) (o : Option (List Condition)),
    extractFromConditionListOpt s o = (flattenListOpt o).foldl stepResourceTypes s
  | s, some cs => by
    simp only [extractFromConditionListOpt, flattenListOpt]
    exact extractFromConditionList_eq_foldl s cs
  | _, none => rfl

theorem extractFromConditionList_eq_foldl :
    ∀ (s : List String) (cs : List Condition),
    extractFromConditionList s cs = (flattenCondList cs).foldl stepResourceTypes s
  | _, [] => rfl
  | s, c :: cs => by
    simp only [extractFromConditionList, flattenCondList, List.foldl_append]
    rw [extractFromConditionList_eq_foldl, extractFromConditionC_eq_foldl]
end

theorem flattenCondList_eq_flatMap :
    ∀ cs : List Condition, flattenCondList cs = cs.flatMap flattenCondC
  | [] => rfl
  | c :: cs => by
    simp only [flattenCondList, List.flatMap_cons, flattenCondList_eq_flatMap cs]

/-- `flatMap` respects permutations (proved here since the library at hand
lacks a ready lemma for it). -/
theorem perm_flatMap {α β : Type} (g : α → List β) {l₁ l₂ : List α}
    (h : l₁.Perm l₂) : (l₁.flatMap g).Perm (l₂.flatMap g) := by
  induction h with
  | nil => simp
  | cons x h ih => simpa using ih.append_left (g x)
  | swap x y l =>
    simp only [List.flatMap_cons]
    rw [← List.append_assoc, ← List.append_assoc]
    exact List.perm_append_comm.append_right _
  | trans h1 h2 ih1 ih2 => exact ih1.trans ih2

/- ## Further association-list lemmas for the field map. -/

theorem mapHas_iff_isSome {β : Type} (m : List (String × β)) (k : String) :
    mapHas m k = true ↔ (mapGet m k).isSome := by
  simp [mapHas, mapGet, List.any_eq_true, List.find?_isSome]

theorem mapHas_eq_false_of_get_none {β : Type} {m : List (String × β)} {k : String}
    (h : mapGet m k = none) : mapHas m k = false := by
  cases hx : mapHas m k
  · rfl
  · have := (mapHas_iff_isSome m k).mp hx
    rw [h] at this
    cases this

theorem mem_of_mapGet {β : Type} {m : List (String × β)} {k : String} {v : β}
    (h : mapGet m k = some v) : (k, v) ∈ m := by
  unfold mapGet at h
  cases hf : m.find? (fun p => p.1 == k) with
  | none => rw [hf] at h; cases h
  | some q =>
    rw [hf] at h
    have hq1 := List.find?_some hf
    simp only [beq_iff_eq] at hq1
    have hmem := List.mem_of_find?_eq_some hf
    have hq : q = (k, v) := by
      obtain ⟨a, b⟩ := q
      simp at h
      simp_all
    rwa [hq] at hmem

theorem mapGet_of_mem_nodup {β : Type} {m : List (String × β)} {k : String} {v : β}
    (hnd : (m.map Prod.fst).Nodup) (h : (k, v) ∈ m) : mapGet m k = some v := by
  induction m with
  | nil => cases h
  | cons p m ih =>
    rcases List.mem_cons.mp h with h | h
    · rw [← h, mapGet_cons]
      simp
    · have hk : k ∈ m.map Prod.fst := List.mem_map.mpr ⟨(k, v), h, rfl⟩
      have hp : p.1 ≠ k := by
        intro hE
        exact (List.nodup_cons.mp hnd).1 (hE ▸ hk)
      rw [mapGet_cons]
      have : (p.1 == k) = false := by simpa using hp
      rw [this]
      simp only [Bool.false_eq_true, if_false]
      exact ih (List.nodup_cons.mp hnd).2 h

theorem keys_mapSet_update {β : Type} {m : List (String × β)} {k : String} (v : β)
    (h : mapHas m k = true) : (mapSet m k v).map Prod.fst = m.map Prod.fst := by
  unfold mapSet
  rw [if_pos h, List.map_map]
  apply List.map_congr_left
  intro p _
  by_cases hp : p.1 = k
  · simp [hp]
  · simp [hp]

theorem keys_mapSet_append {β : Type} {m : List (String × β)} {k : String} (v : β)
    (h : mapHas m k = false) :
    (mapSet m k v).map Prod.fst = m.map Prod.fst ++ [k] := by
  unfold mapSet
  rw [h]
  simp

theorem mem_mapSet_update {β : Type} {m : List (String × β)} {k : String} {v : β}
    (h : mapHas m k = true) :
    ∀ q ∈ mapSet m k v, q = (k, v) ∨ q ∈ m := by
  unfold mapSet
  rw [if_pos h]
  intro q hq
  obtain ⟨p, hp, hpq⟩ := List.mem_map.mp hq
  by_cases hc : p.1 = k
  · left
    rw [← hpq]
    simp [hc]
  · right
    rw [← hpq]
    simpa [hc] using hp

/- ## The per-node effect of `stepField` on one field's entry. -/

theorem contributesTo_spec {c : Condition} {f : String}
    (h : contributesTo c f = true) :
    c.field = some f ∧ f ≠ "" ∧ (nodeChecks c).isEmpty = false := by
  unfold contributesTo at h
  simp only [Bool.and_eq_true, beq_iff_eq, Bool.not_eq_true'] at h
  exact ⟨h.1.1, by simpa using h.1.2, h.2⟩

theorem mapGet_stepField_of_not_contrib {m : List (String × FieldCheck)}
    {c : Condition} {f : String} (h : contributesTo c f = false) :
    mapGet (stepField m c) f = mapGet m f := by
  cases hcf : c.field with
  | none => simp [stepField, hcf]
  | some g =>
    by_cases hg : g = ""
    · simp [stepField, hcf, hg]
    · cases hp : (nodeChecks c).isEmpty with
      | true => simp [stepField, hcf, hg, hp]
      | false =>
        have hgf : g ≠ f := by
          intro hE
          subst hE
          have : contributesTo c g = true := by
            unfold contributesTo
            rw [hcf]
            simp [hg, hp]
          rw [this] at h
          cases h
        cases hmg : mapGet m g with
        | some fc =>
          simp only [stepField, hcf, hp, hmg, Bool.false_eq_true, if_false]
          rw [if_neg hg]
          exact mapGet_mapSet_ne m g f _ (fun hE => hgf hE.symm)
        | none =>
          simp only [stepField, hcf, hp, hmg, Bool.false_eq_true, if_false]
          rw [if_neg hg]
          exact mapGet_append_single_ne m g f _ (fun hE => hgf hE.symm)

theorem mapGet_stepField_contrib_merge {m : List (String × FieldCheck)}
    {c : Condition} {f : String} {fc : FieldCheck}
    (hc : contributesTo c f = true) (hm : mapGet m f = some fc) :
    mapGet (stepField m c) f = some { fc with
      operators := fc.operators ++ (nodeChecks c).map Prod.fst,
      values := fc.values ++ (nodeChecks c).map Prod.snd } := by
  obtain ⟨hf, hne, hpairs⟩ := contributesTo_spec hc
  simp only [stepField, hf, hpairs, Bool.false_eq_true, if_false, hm]
  rw [if_neg hne]
  exact mapGet_mapSet_self m f _

theorem mapGet_stepField_contrib_create {m : List (String × FieldCheck)}
    {c : Condition} {f : String}
    (hc : contributesTo c f = true) (hm : mapGet m f = none) :
    mapGet (stepField m c) f =
      some ⟨f, (nodeChecks c).map Prod.fst, (nodeChecks c).map Prod.snd,
        requiredOfNode c⟩ := by
  obtain ⟨hf, hne, hpairs⟩ := contributesTo_spec hc
  simp only [stepField, hf, hpairs, Bool.false_eq_true, if_false, hm]
  rw [if_neg hne]
  exact mapGet_append_single_self m f _ (mapHas_eq_false_of_get_none hm)

/- ## Characterisation of the field map after a fold over the visit order. -/

theorem contribNodes_cons_true {f : String} {c : Condition} {l : List Condition}
    (hc : contributesTo c f = true) :
    contribNodes f (c :: l) = c :: contribNodes f l := by
  simp [contribNodes, List.filter_cons, hc]

theorem contribNodes_cons_false {f : String} {c : Condition} {l : List Condition}
    (hc : contributesTo c f = false) :
    contribNodes f (c :: l) = contribNodes f l := by
  simp [contribNodes, List.filter_cons, hc]

theorem foldl_stepField_lookup_some :
    ∀ (l : List Condition) (m : List (String × FieldCheck)) (f : String)
      (fc : FieldCheck), mapGet m f = some fc →
    mapGet (l.foldl stepField m) f = some { fc with
      operators := fc.operators ++ (contribPairs f l).map Prod.fst,
      values := fc.values ++ (contribPairs f l).map Prod.snd } := by
  intro l
  induction l with
  | nil =>
    intro m f fc hm
    simpa [contribPairs, contribNodes] using hm
  | cons c l ih =>
    intro m f fc hm
    rw [List.foldl_cons]
    cases hc : contributesTo c f with
    | true =>
      have h2 := mapGet_stepField_contrib_merge hc hm
      rw [ih (stepField m c) f _ h2]
      simp [contribPairs, contribNodes_cons_true hc, List.flatMap_cons,
        List.append_assoc]
    | false =>
      have h2 : mapGet (stepField m c) f = some fc := by
        rw [mapGet_stepField_of_not_contrib hc, hm]
      rw [ih (stepField m c) f fc h2]
      simp [contribPairs, contribNodes_cons_false hc]

theorem foldl_stepField_lookup_none :
    ∀ (l : List Condition) (m : List (String × FieldCheck)) (f : String),
    mapGet m f = none → contribNodes f l = [] →
    mapGet (l.foldl stepField m) f = none := by
  intro l
  induction l with
  | nil => intro m f hm _; simpa using hm
  | cons c l ih =>
    intro m f hm hcn
    cases hc : contributesTo c f with
    | true => rw [contribNodes_cons_true hc] at hcn; cases hcn
    | false =>
      rw [contribNodes_cons_false hc] at hcn
      rw [List.foldl_cons]
      exact ih (stepField m c) f
        (by rw [mapGet_stepField_of_not_contrib hc, hm]) hcn

theorem foldl_stepField_lookup_new :
    ∀ (l : List Condition) (m : List (String × FieldCheck)) (f : String)
      (n : Condition) (ns : List Condition),
    mapGet m f = none → contribNodes f l = n :: ns →
    mapGet (l.foldl stepField m) f =
      some ⟨f, (contribPairs f l).map Prod.fst, (contribPairs f l).map Prod.snd,
        requiredOfNode n⟩ := by
  intro l
  induction l with
  | nil => intro m f n ns _ hcn; cases hcn
  | cons c l ih =>
    intro m f n ns hm hcn
    rw [List.foldl_cons]
    cases hc : contributesTo c f with
    | true =>
      rw [contribNodes_cons_true hc] at hcn
      have hn : n = c := by
        have := congrArg List.head? hcn
        simpa using this.symm
      rw [hn]
      have h2 := mapGet_stepField_contrib_create hc hm
      rw [foldl_stepField_lookup_some l (stepField m c) f _ h2]
      simp [contribPairs, contribNodes_cons_true hc, List.flatMap_cons]
    | false =>
      rw [contribNodes_cons_false hc] at hcn
      have h2 : mapGet (stepField m c) f = none := by
        rw [mapGet_stepField_of_not_contrib hc, hm]
      rw [ih (stepField m c) f n ns h2 hcn]
      simp [contribPairs, contribNodes_cons_false hc]

/- ## Invariants of the field map: keys are distinct and each entry's
`field` member equals its key. -/

theorem stepField_nodup {m : List (String × FieldCheck)} {c : Condition}
    (h : (m.map Prod.fst).Nodup) : ((stepField m c).map Prod.fst).Nodup := by
  cases hcf : c.field with
  | none => simpa [stepField, hcf] using h
  | some g =>
    by_cases hg : g = ""
    · simpa [stepField, hcf, hg] using h
    · cases hp : (nodeChecks c).isEmpty with
      | true => simpa [stepField, hcf, hg, hp] using h
      | false =>
        cases hmg : mapGet m g with
        | some fc =>
          simp only [stepField, hcf, hp, hmg, Bool.false_eq_true, if_false]
          rw [if_neg hg]
          rw [keys_mapSet_update _ ((mapHas_iff_isSome m g).mpr (by simp [hmg]))]
          exact h
        | none =>
          simp only [stepField, hcf, hp, hmg, Bool.false_eq_true, if_false]
          rw [if_neg hg]
          rw [List.map_append]
          rw [List.nodup_append]
          refine ⟨h, by simp, ?_⟩
          intro a ha
          simp only [List.map_cons, List.map_nil, List.mem_singleton]
          intro hb
          subst hb
          have := mapHas_eq_false_of_get_none hmg
          rw [mapHas_eq_false_iff] at this
          obtain ⟨p, hpm, hpa⟩ := List.mem_map.mp ha
          exact (this p hpm) (by rw [hpa])

theorem stepField_fieldInv {m : List (String × FieldCheck)} {c : Condition}
    (h : ∀ p ∈ m, (p.2 : FieldCheck).field = p.1) :
    ∀ p ∈ stepField m c, (p.2 : FieldCheck).field = p.1 := by
  cases hcf : c.field with
  | none => simpa [stepField, hcf] using h
  | some g =>
    by_cases hg : g = ""
    · simpa [stepField, hcf, hg] using h
    · cases hp : (nodeChecks c).isEmpty with
      | true => simpa [stepField, hcf, hg, hp] using h
      | false =>
        cases hmg : mapGet m g with
        | some fc =>
          simp only [stepField, hcf, hp, hmg, Bool.false_eq_true, if_false]
          rw [if_neg hg]
          intro q hq
          have hhas : mapHas m g = true :=
            (mapHas_iff_isSome m g).mpr (by simp [hmg])
          rcases mem_mapSet_update hhas q hq with hq | hq
          · subst hq
            have := h (g, fc) (mem_of_mapGet hmg)
            simpa using this
          · exact h q hq
        | none =>
          simp only [stepField, hcf, hp, hmg, Bool.false_eq_true, if_false]
          rw [if_neg hg]
          intro q hq
          rcases List.mem_append.mp hq with hq | hq
          · exact h q hq
          · simp only [List.mem_singleton] at hq
            subst hq
            rfl

theorem foldl_stepField_nodup :
    ∀ (l : List Condition) (m : List (String × FieldCheck)),
    (m.map Prod.fst).Nodup → (((l.foldl stepField m).map Prod.fst)).Nodup := by
  intro l
  induction l with
  | nil => intro m h; exact h
  | cons c l ih =>
    intro m h
    rw [List.foldl_cons]
    exact ih _ (stepField_nodup h)

theorem foldl_stepField_fieldInv :
    ∀ (l : List Condition) (m : List (String × FieldCheck)),
    (∀ p ∈ m, (p.2 : FieldCheck).field = p.1) →
    ∀ p ∈ l.foldl stepField m, (p.2 : FieldCheck).field = p.1 := by
  intro l
  induction l with
  | nil => intro m h; exact h
  | cons c l ih =>
    intro m h
    rw [List.foldl_cons]
    exact ih _ (stepField_fieldInv h)

/- ## Bridging the fold characterisation to `extractFieldChecks` output. -/

theorem extractFieldChecks_lookup {c : Condition} {fc : FieldCheck}
    (h : fc ∈ extractFieldChecks (some c)) :
    mapGet ((flattenCondC c).foldl stepField []) fc.field = some fc := by
  unfold extractFieldChecks at h
  rw [processConditionOpt_eq_foldl] at h
  simp only [flattenOpt] at h
  obtain ⟨p, hp, hsnd⟩ := List.mem_map.mp h
  have hinv := foldl_stepField_fieldInv (flattenCondC c) []
    (by intro q hq; cases hq) p hp
  have hnd := foldl_stepField_nodup (flattenCondC c) [] (by simp)
  have hmem : (fc.field, fc) ∈ (flattenCondC c).foldl stepField [] := by
    obtain ⟨a, b⟩ := p
    simp only at hsnd hinv
    rw [← hsnd, hinv]
    exact hp
  exact mapGet_of_mem_nodup hnd hmem

theorem extractFieldChecks_of_lookup {c : Condition} {f : String} {fc : FieldCheck}
    (h : mapGet ((flattenCondC c).foldl stepField []) f = some fc) :
    fc ∈ extractFieldChecks (some c) := by
  unfold extractFieldChecks
  rw [processConditionOpt_eq_foldl]
  simp only [flattenOpt]
  exact List.mem_map.mpr ⟨(f, fc), mem_of_mapGet h, rfl⟩

theorem exists_mem_nodeChecks {n : Condition} :
    (((nodeChecks n).map Prod.fst).contains ("exists")) = true ↔
      (n.existsOp).isSome := by
  rw [List.elem_iff]
  constructor
  · intro h
    obtain ⟨pair, hp, hfst⟩ := List.mem_map.mp h
    obtain ⟨op, _, hpair⟩ := List.mem_filterMap.mp hp
    cases hv : n.opVal op with
    | none => rw [hv] at hpair; cases hpair
    | some v =>
      rw [hv] at hpair
      simp only [Option.map_some'] at hpair
      have hpv : (op, v) = pair := Option.some.inj hpair
      have hop : op = "exists" := by
        rw [← hpv] at hfst
        simpa using hfst
      rw [hop] at hv
      have : n.opVal ("exists") = n.existsOp := rfl
      rw [this] at hv
      simp [hv]
  · intro h
    cases hv : n.existsOp with
    | none => rw [hv] at h; cases h
    | some v =>
      apply List.mem_map.mpr
      refine ⟨("exists", v), ?_, rfl⟩
      apply List.mem_filterMap.mpr
      refine ⟨"exists", by decide, ?_⟩
      have : n.opVal ("exists") = n.existsOp := rfl
      rw [this, hv]
      rfl

theorem requiredOfNode_iff {n : Condition} :
    requiredOfNode n = true ↔ n.existsOp = some (JVal.bool true) := by
  unfold requiredOfNode
  cases hex : n.existsOp with
  | none =>
    have hc : (((nodeChecks n).map Prod.fst).contains ("exists")) = false := by
      cases hx : ((nodeChecks n).map Prod.fst).contains ("exists")
      · rfl
      · have := exists_mem_nodeChecks.mp hx
        rw [hex] at this
        cases this
    simp [hc]
  | some v =>
    have hc : (((nodeChecks n).map Prod.fst).contains ("exists")) = true :=
      exists_mem_nodeChecks.mpr (by simp [hex])
    rw [if_pos hc]
    cases v with
    | bool b =>
      cases b
      · simp
      · simp
    | str s => simp
    | num i => simp
    | arr l => simp
    | obj o => simp
    | null => simp

/- ## C4: when `required` is set. -/

/-- C4 (amended): for every FieldCheck produced, `required` equals the
`required` computed at the first node (in depth-first visit order) that
contributes a check for that field — it is true iff that first node carries
`exists` with operand literally `true`.  An `exists = true` check occurring
at any later node of the tree never sets it (and nothing ever unsets it). -/
theorem C4_required_set_at_first_contribution :
    ∀ (c : Condition) (fc : FieldCheck), fc ∈ extractFieldChecks (some c) →
    ∃ n : Condition, (contribNodes fc.field (flattenCondC c)).head? = some n ∧
      fc.required = requiredOfNode n ∧
      (fc.required = true ↔ n.existsOp = some (JVal.bool true)) := by
  intro c fc h
  have hl := extractFieldChecks_lookup h
  cases hcn : contribNodes fc.field (flattenCondC c) with
  | nil =>
    have hnone := foldl_stepField_lookup_none (flattenCondC c) [] fc.field rfl hcn
    rw [hnone] at hl
    cases hl
  | cons n ns =>
    have hnew := foldl_stepField_lookup_new (flattenCondC c) [] fc.field n ns rfl hcn
    rw [hnew] at hl
    have hfc := Option.some.inj hl
    have hreq : fc.required = requiredOfNode n :=
      (congrArg FieldCheck.required hfc).symm
    refine ⟨n, rfl, ?_, ?_⟩
    · exact hreq
    · rw [hreq]
      exact requiredOfNode_iff

/-- C4 witness: on the concrete tree whose `exists = true` check of field
`a` comes second, the theorem applies to the produced FieldCheck (whose
`required` is `false`). -/
theorem C4_required_set_at_first_contribution_witness :
    ∃ n : Condition,
      (contribNodes ("a") (flattenCondC condExSecondTree)).head? = some n ∧
      (false : Bool) = requiredOfNode n ∧
      ((false : Bool) = true ↔ n.existsOp = some (JVal.bool true)) := by
  have h := C4_required_set_at_first_contribution condExSecondTree
    { field := "a", operators := ["equals", "exists"],
      values := [JVal.str ("x"), JVal.bool true], required := false }
    (List.mem_singleton.mpr rfl)
  simpa using h

/-- C4 counterexample: in `allOf [ {a equals x}, {a exists true} ]` an
`exists = true` check for `a` is seen in the tree, yet the produced
FieldCheck for `a` has `required = false`, refuting "required = true iff an
exists = true check was seen for that field anywhere in the tree". -/
theorem C4_later_exists_check_ignored :
    existsTrueSeenFor condExSecondTree ("a") = true ∧
    extractFieldChecks (some condExSecondTree) =
      [{ field := "a", operators := ["equals", "exists"],
         values := [JVal.str ("x"), JVal.bool true], required := false }] :=
  ⟨rfl, rfl⟩

/- ## C5: permutation invariance of field-check aggregation. -/

theorem flattenCondC_mkAllOf (L : List Condition) :
    flattenCondC (Condition.mkAllOf L) =
      Condition.mkAllOf L :: flattenCondList L := by
  simp [Condition.mkAllOf, flattenCondC, flattenListOpt, flattenOpt]

theorem contributesTo_mkAllOf (L : List Condition) (f : String) :
    contributesTo (Condition.mkAllOf L) f = false := by
  unfold contributesTo Condition.mkAllOf Condition.field
  rfl

theorem stepField_mkAllOf (m : List (String × FieldCheck)) (L : List Condition) :
    stepField m (Condition.mkAllOf L) = m := rfl

theorem fieldChecks_lookup_allOf {L : List Condition} {fc : FieldCheck}
    (h : fc ∈ extractFieldChecks (some (Condition.mkAllOf L))) :
    mapGet ((flattenCondList L).foldl stepField []) fc.field = some fc := by
  have hl := extractFieldChecks_lookup h
  rwa [flattenCondC_mkAllOf, List.foldl_cons, stepField_mkAllOf] at hl

theorem fieldChecks_perm_mono {L L' : List Condition} (h : L.Perm L') :
    ∀ fc ∈ extractFieldChecks (some (Condition.mkAllOf L)),
    ∃ fc' ∈ extractFieldChecks (some (Condition.mkAllOf L')),
      fc.field = fc'.field ∧ fc.operators.Perm fc'.operators ∧
        fc.values.Perm fc'.values := by
  intro fc hfc
  have hl := fieldChecks_lookup_allOf hfc
  have hperm : (flattenCondList L).Perm (flattenCondList L') := by
    rw [flattenCondList_eq_flatMap, flattenCondList_eq_flatMap]
    exact perm_flatMap flattenCondC h
  have hcperm : (contribNodes fc.field (flattenCondList L)).Perm
      (contribNodes fc.field (flattenCondList L')) := hperm.filter _
  have hpairs : (contribPairs fc.field (flattenCondList L)).Perm
      (contribPairs fc.field (flattenCondList L')) :=
    perm_flatMap nodeChecks hcperm
  cases hcn : contribNodes fc.field (flattenCondList L) with
  | nil =>
    have hnone := foldl_stepField_lookup_none (flattenCondList L) [] fc.field rfl hcn
    rw [hnone] at hl
    cases hl
  | cons n ns =>
    rw [hcn] at hcperm
    cases hcn' : contribNodes fc.field (flattenCondList L') with
    | nil =>
      rw [hcn'] at hcperm
      cases hcperm.eq_nil
    | cons n' ns' =>
      have hnew := foldl_stepField_lookup_new (flattenCondList L) [] fc.field n ns
        rfl hcn
      rw [hnew] at hl
      have hfcEq := Option.some.inj hl
      have hnew' := foldl_stepField_lookup_new (flattenCondList L') [] fc.field n' ns'
        rfl hcn'
      refine ⟨⟨fc.field, (contribPairs fc.field (flattenCondList L')).map Prod.fst,
        (contribPairs fc.field (flattenCondList L')).map Prod.snd,
        requiredOfNode n'⟩, ?_, rfl, ?_, ?_⟩
      · apply extractFieldChecks_of_lookup (f := fc.field)
        rw [flattenCondC_mkAllOf, List.foldl_cons, stepField_mkAllOf]
        exact hnew'
      · have hops : fc.operators = (contribPairs fc.field (flattenCondList L)).map
            Prod.fst := (congrArg FieldCheck.operators hfcEq).symm
        rw [hops]
        exact hpairs.map Prod.fst
      · have hvals : fc.values = (contribPairs fc.field (flattenCondList L)).map
            Prod.snd := (congrArg FieldCheck.values hfcEq).symm
        rw [hvals]
        exact hpairs.map Prod.snd

/-- C5 (amended): permuting the children of a root `allOf` yields field
checks for the same fields, and for each field the same multiset of
operators and the same multiset of values; the `required` flag, however, is
order-dependent and is not preserved (see the counterexample). -/
theorem C5_allOf_children_permutation :
    ∀ (L L' : List Condition), L.Perm L' →
    (∀ fc ∈ extractFieldChecks (some (Condition.mkAllOf L)),
      ∃ fc' ∈ extractFieldChecks (some (Condition.mkAllOf L')),
        fc.field = fc'.field ∧ fc.operators.Perm fc'.operators ∧
          fc.values.Perm fc'.values) ∧
    (∀ fc' ∈ extractFieldChecks (some (Condition.mkAllOf L')),
      ∃ fc ∈ extractFieldChecks (some (Condition.mkAllOf L)),
        fc'.field = fc.field ∧ fc'.operators.Perm fc.operators ∧
          fc'.values.Perm fc.values) :=
  fun _ _ h => ⟨fieldChecks_perm_mono h, fieldChecks_perm_mono h.symm⟩

/-- C5 witness: the theorem applied to the two-element child lists that
check field `a` in the two orders. -/
theorem C5_allOf_children_permutation_witness :
    ∃ fc' ∈ extractFieldChecks (some (Condition.mkAllOf condPairExFirst)),
      ("a" : String) = fc'.field ∧
        (["equals", "exists"] : List String).Perm fc'.operators ∧
        ([JVal.str ("x"), JVal.bool true] : List JVal).Perm fc'.values := by
  have h := (C5_allOf_children_permutation condPairEqFirst condPairExFirst
    (List.Perm.swap _ _ _)).1
    { field := "a", operators := ["equals", "exists"],
      values := [JVal.str ("x"), JVal.bool true], required := false }
    (List.mem_singleton.mpr rfl)
  simpa using h

/-- C5 counterexample: the two orders of the same two checks of field `a`
are a permutation of each other, yet the produced FieldCheck records are not
equal up to ordering within their lists: `required` is `false` for one order
and `true` for the other. -/
theorem C5_required_not_permutation_invariant :
    condPairEqFirst.Perm condPairExFirst ∧
    (extractFieldChecks (some (Condition.mkAllOf condPairEqFirst))).map
      (fun fc => fc.required) = [false] ∧
    (extractFieldChecks (some (Condition.mkAllOf condPairExFirst))).map
      (fun fc => fc.required) = [true] :=
  ⟨List.Perm.swap _ _ _, rfl, rfl⟩

/- ## C6: complexity classification thresholds. -/

/-- C6: the complexity class of a policy rule is exactly the claimed
piecewise classification of (c, o, f) = (listed-condition count, distinct
logical-operator count, distinct field-check count); a rule with c = 9 is
`complex` whatever o and f are; and the concrete boundary trees with
(3, 1, 2) and (4, 1, 2) classify `simple` and `moderate`. -/
theorem C6_complexity_classification :
    (∀ rule : PolicyRule,
      (analyzeRules rule).complexity =
        if (extractConditions rule.ifCond).length ≤ 3 ∧
            (extractLogicalOperators rule.ifCond).length ≤ 1 ∧
            (extractFieldChecks rule.ifCond).length ≤ 2 then "simple"
        else if (extractConditions rule.ifCond).length ≤ 8 ∧
            (extractLogicalOperators rule.ifCond).length ≤ 3 ∧
            (extractFieldChecks rule.ifCond).length ≤ 5 then "moderate"
        else "complex") ∧
    (∀ (conds : List PolicyConditionInfo) (lops : List String)
        (fchecks : List FieldCheck), conds.length = 9 →
      assessComplexity conds lops fchecks = "complex") ∧
    ((extractConditions ruleC6Simple.ifCond).length = 3 ∧
      (extractLogicalOperators ruleC6Simple.ifCond).length = 1 ∧
      (extractFieldChecks ruleC6Simple.ifCond).length = 2 ∧
      (analyzeRules ruleC6Simple).complexity = "simple") ∧
    ((extractConditions ruleC6Moderate.ifCond).length = 4 ∧
      (extractLogicalOperators ruleC6Moderate.ifCond).length = 1 ∧
      (extractFieldChecks ruleC6Moderate.ifCond).length = 2 ∧
      (analyzeRules ruleC6Moderate).complexity = "moderate") := by
  refine ⟨fun rule => rfl, ?_, ⟨rfl, rfl, rfl, rfl⟩, ⟨rfl, rfl, rfl, rfl⟩⟩
  intro conds lops fchecks h
  unfold assessComplexity
  simp [h]

/-- C6 witness: the c = 9 conjunct applied to a concrete list of nine
listed conditions. -/
theorem C6_complexity_classification_witness :
    assessComplexity
      (List.replicate 9 (PolicyConditionInfo.mk ("field") ("equals") none none []))
      [] [] = "complex" :=
  C6_complexity_classification.2.1 _ _ _ (List.length_replicate 9 _)

/- ## C7: effect flags require the literal effect string. -/

/-- C7: for a rule whose `then` carries a (truthy) effect, extraction yields
exactly one EffectInfo; `deploysResources` is true iff the effect string is
literally `deployIfNotExists` and a truthy deployment block is present, and
`modifiesResources` is true iff it is literally `modify` and a non-empty
operations list is present; any bracketed effect (in particular a parameter
reference such as `[parameters(...)]`) satisfies neither flag. -/
theorem C7_effect_flags_literal_only :
    ∀ (rule : PolicyRule) (t : PolicyThen) (e : String),
      rule.thenClause = some t → t.effect = some e → e ≠ "" →
      ∃ info : PolicyEffectInfo, extractEffects rule = [info] ∧
        (info.deploysResources = true ↔
          (e = "deployIfNotExists" ∧
            ∃ d dep, t.details = some d ∧ d.deployment = some dep ∧
              dep.truthy = true)) ∧
        (info.modifiesResources = true ↔
          (e = "modify" ∧
            ∃ d l, t.details = some d ∧ d.operations = some l ∧ l ≠ [])) ∧
        (∀ s : String, e = "[" ++ s →
          info.deploysResources = false ∧ info.modifiesResources = false) := by
  intro rule t e hthen heff hne
  obtain ⟨teff, tdet⟩ := t
  simp only at heff
  subst heff
  simp only [extractEffects, hthen]
  rw [if_neg hne]
  refine ⟨_, rfl, ?_, ?_, ?_⟩
  · cases tdet with
    | none => simp
    | some d =>
      obtain ⟨rids, dep, ops⟩ := d
      cases dep with
      | none => simp
      | some v =>
        simp only [Bool.and_eq_true, beq_iff_eq]
        constructor
        · rintro ⟨he, htr⟩
          exact ⟨he, ⟨rids, some v, ops⟩, v, rfl, rfl, htr⟩
        · rintro ⟨he, d2, dep2, hd2, hdep2, htr⟩
          obtain rfl : d2 = ⟨rids, some v, ops⟩ := (Option.some.inj hd2).symm
          obtain rfl : dep2 = v := by
            have := hdep2
            simp only at this
            exact (Option.some.inj this).symm
          exact ⟨he, htr⟩
  · cases tdet with
    | none => simp
    | some d =>
      obtain ⟨rids, dep, ops⟩ := d
      cases ops with
      | none => simp
      | some l =>
        simp only [Bool.and_eq_true, beq_iff_eq]
        constructor
        · rintro ⟨he, hl⟩
          refine ⟨he, ⟨rids, dep, some l⟩, l, rfl, rfl, ?_⟩
          simpa using hl
        · rintro ⟨he, d2, l2, hd2, hl2, hl⟩
          obtain rfl : d2 = ⟨rids, dep, some l⟩ := (Option.some.inj hd2).symm
          obtain rfl : l2 = l := by
            have := hl2
            simp only at this
            exact (Option.some.inj this).symm
          exact ⟨he, by simpa using hl⟩
  · intro s hs
    have hd : e ≠ "deployIfNotExists" := by
      intro hE
      rw [hs] at hE
      have := congrArg String.data hE
      rw [String.data_append] at this
      cases this
    have hm : e ≠ "modify" := by
      intro hE
      rw [hs] at hE
      have := congrArg String.data hE
      rw [String.data_append] at this
      cases this
    constructor
    · have hb : (e == "deployIfNotExists") = false := beq_eq_false_iff_ne.mpr hd
      simp [hb]
    · have hb : (e == "modify") = false := beq_eq_false_iff_ne.mpr hm
      simp [hb]

/-- C7 witness: the theorem at a concrete rule whose effect is the literal
`deployIfNotExists` with a deployment block present. -/
theorem C7_effect_flags_literal_only_witness :
    ∃ info : PolicyEffectInfo, extractEffects ruleDeploy = [info] ∧
      (info.deploysResources = true ↔
        (("deployIfNotExists" : String) = "deployIfNotExists" ∧
          ∃ d dep, thenDeploy.details = some d ∧ d.deployment = some dep ∧
            dep.truthy = true)) ∧
      (info.modifiesResources = true ↔
        (("deployIfNotExists" : String) = "modify" ∧
          ∃ d l, thenDeploy.details = some d ∧ d.operations = some l ∧ l ≠ [])) ∧
      (∀ s : String, ("deployIfNotExists" : String) = "[" ++ s →
        info.deploysResources = false ∧ info.modifiesResources = false) :=
  C7_effect_flags_literal_only ruleDeploy thenDeploy ("deployIfNotExists")
    rfl rfl (by decide)

/- ## C8: category inference is first-match in table order. -/

/-- C8: category inference is the (deterministic) first-match scan of the
keyword table: it returns `General` exactly when no category's keyword list
matches the lowercased text blob; it returns the category of the first
matching table entry; and a text containing both `vm` and `storage`
classifies `Compute`, the earlier table entry. -/
theorem C8_first_category_in_table_order :
    (∀ p c d, inferCategory p c d = "General" ↔
      ∀ ck ∈ categoryKeywords,
        ck.2.any (fun kw => strIncludes (categoryText p c d) kw) = false) ∧
    (∀ p c d (pre post : List (String × List String)) (cat : String)
        (kws : List String),
      categoryKeywords = pre ++ (cat, kws) :: post →
      kws.any (fun kw => strIncludes (categoryText p c d) kw) = true →
      (∀ ck ∈ pre,
        ck.2.any (fun kw => strIncludes (categoryText p c d) kw) = false) →
      inferCategory p c d = cat) ∧
    inferCategory ("") ("vm storage") ("") = "Compute" := by
  refine ⟨?_, ?_, rfl⟩
  · intro p c d
    simp only [inferCategory]
    cases hf : categoryKeywords.find?
        (fun ck => ck.2.any (fun kw => strIncludes (categoryText p c d) kw)) with
    | none =>
      refine iff_of_true rfl ?_
      intro ck hck
      have := List.find?_eq_none.mp hf ck hck
      simpa using this
    | some ck =>
      have hmem := List.mem_of_find?_eq_some hf
      have hpred := List.find?_some hf
      have hG : ck.1 ≠ "General" := by
        have hall : ∀ x ∈ categoryKeywords, x.1 ≠ "General" := by decide
        exact hall ck hmem
      refine iff_of_false hG ?_
      intro hall
      rw [hall ck hmem] at hpred
      cases hpred
  · intro p c d pre post cat kws htab hmatch hpre
    simp only [inferCategory]
    have hfp : pre.find?
        (fun ck => ck.2.any (fun kw => strIncludes (categoryText p c d) kw)) = none := by
      rw [List.find?_eq_none]
      intro ck hck
      simp [hpre ck hck]
    rw [htab, List.find?_append, hfp, Option.none_or,
      List.find?_cons_of_pos _ (by simpa using hmatch)]

/-- C8 witness: a text matching no keyword of any category classifies
`General`, by the theorem's first conjunct. -/
theorem C8_first_category_in_table_order_witness :
    inferCategory ("") ("qqq") ("") = "General" :=
  (C8_first_category_in_table_order.1 ("") ("qqq") ("")).mpr (by decide)

/- ## C9: `searchTemplates` mutates its input index when sorting unfiltered. -/

/-- C9: the claim says `searchTemplates` leaves the input index unchanged,
in particular with a `sortBy` and no filters.  In the source, `results`
aliases `templateIndex.templates` until a filter replaces it, and
`Array.prototype.sort` sorts in place; with criteria `{sortBy: "size"}` and
no filters the call reorders the index's own array: on the concrete
two-template index (sizes 5000 then 2000) the index afterwards holds sizes
2000 then 5000. -/
theorem C9_sort_without_filters_mutates_index :
    (searchTemplates idxAB sortBySizeCriteria).1.map (fun t => t.size) =
      [2000, 5000] ∧
    (searchTemplates idxAB sortBySizeCriteria).2.templates.map (fun t => t.size) =
      [2000, 5000] ∧
    idxAB.templates.map (fun t => t.size) = [5000, 2000] :=
  ⟨rfl, rfl, rfl⟩

/- ## C10: tier-1 collection of `Microsoft.<word>/<word>` field paths. -/

theorem mem_setAdd_self (s : List String) (x : String) : x ∈ setAdd s x := by
  unfold setAdd
  by_cases h : s.contains x
  · rw [if_pos h]
    exact List.elem_iff.mp h
  · rw [if_neg h]
    exact List.mem_append_right _ (List.mem_singleton.mpr rfl)

theorem mem_setAdd_of_mem {s : List String} {x : String} (y : String)
    (h : x ∈ s) : x ∈ setAdd s y := by
  unfold setAdd
  by_cases hy : s.contains y
  · rw [if_pos hy]
    exact h
  · rw [if_neg hy]
    exact List.mem_append_left _ h

theorem mem_addTypeEquals {s : List String} {x : String} (c : Condition)
    (h : x ∈ s) : x ∈ addTypeEquals s c := by
  unfold addTypeEquals
  split
  · split
    · exact mem_setAdd_of_mem _ h
    · exact h
  · exact h

theorem mem_addTypeIn {s : List String} {x : String} (c : Condition)
    (h : x ∈ s) : x ∈ addTypeIn s c := by
  unfold addTypeIn
  split
  · rename_i vs _
    clear * - h
    induction vs generalizing s with
    | nil => exact h
    | cons v vs ih =>
      rw [List.foldl_cons]
      apply ih
      cases v with
      | str t => exact mem_setAdd_of_mem _ h
      | num n => exact h
      | bool b => exact h
      | arr l => exact h
      | obj o => exact h
      | null => exact h
  · exact h

theorem mem_addFieldPathMatch {s : List String} {x : String} (c : Condition)
    (h : x ∈ s) : x ∈ addFieldPathMatch s c := by
  unfold addFieldPathMatch
  split
  · split
    · split
      · exact mem_setAdd_of_mem _ h
      · exact h
    · exact h
  · exact h

theorem stepResourceTypes_mono {s : List String} {x : String} (c : Condition)
    (h : x ∈ s) : x ∈ stepResourceTypes s c := by
  unfold stepResourceTypes
  apply mem_addFieldPathMatch
  split
  · exact mem_addTypeIn c (mem_addTypeEquals c h)
  · exact h

theorem foldl_stepRT_mono :
    ∀ (l : List Condition) (s : List String) (x : String), x ∈ s →
    x ∈ l.foldl stepResourceTypes s := by
  intro l
  induction l with
  | nil => intro s x h; exact h
  | cons c l ih =>
    intro s x h
    rw [List.foldl_cons]
    exact ih _ x (stepResourceTypes_mono c h)

theorem addFieldPathMatch_adds {s : List String} {c : Condition} {f p : String}
    (hf : c.field = some f) (hm : matchTypePath f = some p) :
    p ∈ addFieldPathMatch s c := by
  have hne : f ≠ "" := by
    intro hE
    rw [hE] at hm
    rw [show matchTypePath ("") = none from rfl] at hm
    cases hm
  simp only [addFieldPathMatch, hf]
  rw [if_pos hne, hm]
  exact mem_setAdd_self _ _

theorem stepResourceTypes_adds {s : List String} {c : Condition} {f p : String}
    (hf : c.field = some f) (hm : matchTypePath f = some p) :
    p ∈ stepResourceTypes s c := by
  unfold stepResourceTypes
  exact addFieldPathMatch_adds hf hm

/-- C10: any node whose field name matches the `Microsoft.<word>/<word>`
prefix pattern contributes the matched prefix to the tier-1 resource-type
set; consequently the tier-1 result is non-empty and `extractResourceTypes`
returns it, skipping tier-2 field-pattern inference. -/
theorem C10_field_path_feeds_tier1 :
    ∀ (rule : PolicyRule) (c : Condition), rule.ifCond = some c →
    ∀ n ∈ flattenCondC c, ∀ (f p : String), n.field = some f →
    matchTypePath f = some p →
    p ∈ extractFromConditionC [] c ∧
    extractFromConditionC [] c ≠ [] ∧
    extractResourceTypes rule = extractFromConditionC [] c := by
  intro rule c hif n hn f p hf hm
  have hmem : p ∈ extractFromConditionC [] c := by
    rw [extractFromConditionC_eq_foldl]
    obtain ⟨l1, l2, hsplit⟩ := List.append_of_mem hn
    rw [hsplit, List.foldl_append, List.foldl_cons]
    exact foldl_stepRT_mono l2 _ p (stepResourceTypes_adds hf hm)
  have hne : extractFromConditionC [] c ≠ [] := List.ne_nil_of_mem hmem
  refine ⟨hmem, hne, ?_⟩
  simp only [extractResourceTypes, hif]
  rw [if_neg (fun hz => hne (List.length_eq_zero.mp hz))]

/-- C10 witness: a rule whose only hint is the field path
`Microsoft.Sql/servers/version` — the prefix `Microsoft.Sql/servers` is
collected by tier 1 and returned. -/
theorem C10_field_path_feeds_tier1_witness :
    ("Microsoft.Sql/servers" : String) ∈ extractFromConditionC []
      (Condition.fieldEquals ("Microsoft.Sql/servers/version") (.str "12.0")) ∧
    extractFromConditionC []
      (Condition.fieldEquals ("Microsoft.Sql/servers/version") (.str "12.0")) ≠ [] ∧
    extractResourceTypes ruleFieldPath = extractFromConditionC []
      (Condition.fieldEquals ("Microsoft.Sql/servers/version") (.str "12.0")) :=
  C10_field_path_feeds_tier1 ruleFieldPath _ rfl _
    (List.mem_singleton.mpr rfl) _ _ rfl rfl

end AzurePolicyMcp
